import Mathlib

/-!
Verification of the `render-html` templating engine.

This development shallowly embeds the three algorithmic cores of the
repository and proves properties of the embedding:

* the template compiler (`src/html.ts`, token-based revision):
  `createTemplateCacheEntry`, the attribute/event/text slot classification
  driven by the regular expressions
  `/([^\s=>\x2f]+)\s*=\s*(['"])?[^'"]*$/` and `/^on\w+$/i`,
  and the cache-backed `html` entry point;
* the incremental renderer (`src/render.ts`, path-based revision):
  `createNodeInstance` and `render` over an explicit DOM store with
  node identities, event-listener lists and a per-container node-instance
  cache;
* the fragment serializer (`src/serialization/serializeHTMLfragment.ts`):
  `serializeHTMLfragment` with void/obsolete/raw-text element handling and
  declarative-shadow-DOM emission.

Machine integers do not occur; all JavaScript numbers that matter here are
array indices (modelled as `Nat`) or arbitrary substitution values.
-/

set_option autoImplicit false

namespace RenderHtml

/-! ## Part 1: the template compiler (token-based `html.ts`) -/

/-- JavaScript `\s` (the whitespace class used by the compiler's regexes),
restricted to the code points that can appear in template literals here. -/
def jsWs (c : Char) : Bool :=
  c == ' ' || c == '\t' || c == '\n' || c == '\r' ||
  c == '\x0b' || c == '\x0c' || c == '\u00A0'

/-- Character class `[^\s=>\x2f]` of the attribute-name capture group in
`reIsAttribute`. -/
def isNameChar (c : Char) : Bool :=
  !(jsWs c || c == '=' || c == '>' || c == '/')

/-- True when the character list contains no single or double quote;
this is the `[^'"]*$` tail of `reIsAttribute`. -/
def noQuoteIn (l : List Char) : Bool :=
  l.all (fun c => !(c == '\'' || c == '"'))

/-- Attempt to match `reIsAttribute` = `/([^\s=>\x2f]+)\s*=\s*(['"])?[^'"]*$/`
starting exactly at the head of `l` (the rest of the match must reach the end
of the string).  Returns the captured attribute name on success.  Greedy
matching of the name run is faithful: a shorter name would be followed by a
name character, which can satisfy neither `\s*` nor `=`. -/
def matchFrom (l : List Char) : Option String :=
  let nm := l.takeWhile isNameChar
  if nm.isEmpty then none
  else
    match (l.dropWhile isNameChar).dropWhile jsWs with
    | '=' :: l3 =>
      match l3.dropWhile jsWs with
      | [] => some (String.mk nm)
      | q :: l5 =>
        if q == '\'' || q == '"' then
          if noQuoteIn l5 then some (String.mk nm) else none
        else
          if noQuoteIn (q :: l5) then some (String.mk nm) else none
    | _ => none

/-- Leftmost match of `reIsAttribute` against a string given as a character
list, mirroring JavaScript `String.prototype.match`: starting positions are
tried left to right. -/
def findAttrMatch : List Char → Option String
  | [] => none
  | c :: rest =>
    match matchFrom (c :: rest) with
    | some nm => some nm
    | none => findAttrMatch rest

/-- JavaScript word character `\w` = `[A-Za-z0-9_]`. -/
def isWordChar (c : Char) : Bool :=
  c.isAlpha || c.isDigit || c == '_'

/-- The compiler's `reIsEvent` = `/^on\w+$/i` applied to an attribute name. -/
def isOnEventName (nm : String) : Bool :=
  match nm.data with
  | c1 :: c2 :: c3 :: rest =>
    (c1 == 'o' || c1 == 'O') && (c2 == 'n' || c2 == 'N') &&
      (c3 :: rest).all isWordChar
  | _ => false

/-- ASCII lowering standing in for `String.prototype.toLowerCase`, on the
character-list view of strings. -/
def jsToLower (s : String) : String :=
  String.mk (s.data.map Char.toLower)

/-- Slot kinds of the compiler's part descriptors. -/
inductive PartKind where
  | text
  | attr
  | event
  deriving DecidableEq, Repr

/-- Part descriptor produced by the token-based compiler (`PartMeta` in
`html.ts`): kind, optional attribute/event name, stable substitution index
and the unique placeholder token. -/
structure PartMetaTok where
  ptype : PartKind
  attr : Option String := none
  event : Option String := none
  substitutionIndex : Nat
  substitutionPlaceholder : String
  deriving DecidableEq, Repr

/-- Classification of one interpolation slot from the static segment that
precedes it, exactly as in the `templateStrings.forEach` body of
`createTemplateCacheEntry`. -/
def classifySlot (s : String) (idx : Nat) : PartMetaTok :=
  match findAttrMatch s.data with
  | some nm =>
    if isOnEventName nm then
      { ptype := .event
        event := some (jsToLower (String.mk (nm.data.drop 2)))
        substitutionIndex := idx
        substitutionPlaceholder := "<!--$event-" ++ toString idx ++ "$-->" }
    else
      { ptype := .attr
        attr := some nm
        substitutionIndex := idx
        substitutionPlaceholder := "<!--$attr-" ++ toString idx ++ "$-->" }
  | none =>
    { ptype := .text
      substitutionIndex := idx
      substitutionPlaceholder := "<!--$text-" ++ toString idx ++ "$-->" }

/-- Walk the static segments accumulating html chunks and part descriptors;
a placeholder is emitted after every segment except the last one. -/
def compileAux : Nat → List String → List String × List PartMetaTok
  | _, [] => ([], [])
  | _, [s] => ([s], [])
  | idx, s :: s2 :: rest =>
    let meta := classifySlot s idx
    let p := compileAux (idx + 1) (s2 :: rest)
    (s :: meta.substitutionPlaceholder :: p.1, meta :: p.2)

/-- Compiled template cache entry (`TemplateCacheEntry` in `html.ts`). -/
structure TemplateCacheEntryTok where
  partMeta : List PartMetaTok
  templateStrings : List String
  templateWithPlaceholders : String
  deriving DecidableEq, Repr

/-- The compiler proper (`createTemplateCacheEntry`). -/
def createTemplateCacheEntry (segs : List String) : TemplateCacheEntryTok :=
  let p := compileAux 0 segs
  { partMeta := p.2
    templateStrings := segs
    templateWithPlaceholders := String.join p.1 }

/-- State of the module-level `templateCache` WeakMap.  Template-literal
call-site objects are identified by a numeric key; `count` counts how many
times `createTemplateCacheEntry` has run. -/
structure CompilerState where
  cache : List (Nat × TemplateCacheEntryTok)
  count : Nat
  deriving DecidableEq, Repr

/-- Lookup in the cache association list (WeakMap `get`). -/
def cacheFind (c : List (Nat × TemplateCacheEntryTok)) (k : Nat) :
    Option TemplateCacheEntryTok :=
  (c.find? (fun e => e.1 == k)).map (fun e => e.2)

/-- Template result returned by `html`: the shared compiled fields plus the
call-specific substitutions, generic in the substitution type. -/
structure TemplateResultTok (α : Type) where
  partMeta : List PartMetaTok
  substitutions : List α
  templateStrings : List String
  templateWithPlaceholders : String

/-- The `html` tagged-template entry point: compile on a cache miss, then
assemble the template result from the cached entry and the fresh
substitutions.  The impossible cache miss after insertion mirrors the
non-null assertion in the source and yields a degenerate entry. -/
def html {α : Type} (st : CompilerState) (key : Nat) (segs : List String)
    (subs : List α) : CompilerState × TemplateResultTok α :=
  let st' :=
    if (cacheFind st.cache key).isNone then
      { cache := (key, createTemplateCacheEntry segs) :: st.cache
        count := st.count + 1 }
    else st
  match cacheFind st'.cache key with
  | some e =>
    (st', { partMeta := e.partMeta
            substitutions := subs
            templateStrings := e.templateStrings
            templateWithPlaceholders := e.templateWithPlaceholders })
  | none =>
    (st', { partMeta := []
            substitutions := subs
            templateStrings := segs
            templateWithPlaceholders := "" })

/-- Finding a key at the head of the cache list. -/
theorem cacheFind_cons_self (k : Nat) (e : TemplateCacheEntryTok)
    (c : List (Nat × TemplateCacheEntryTok)) :
    cacheFind ((k, e) :: c) k = some e := by
  simp [cacheFind, List.find?]

/-- Behaviour of `html` on a cache hit: no state change, cached fields reused. -/
theorem html_found {α : Type} (st : CompilerState) (key : Nat) (segs : List String)
    (subs : List α) (e : TemplateCacheEntryTok)
    (he : cacheFind st.cache key = some e) :
    html st key segs subs =
      (st, { partMeta := e.partMeta
             substitutions := subs
             templateStrings := e.templateStrings
             templateWithPlaceholders := e.templateWithPlaceholders }) := by
  simp [html, he]

/-- Behaviour of `html` on a cache miss: one compilation, entry stored. -/
theorem html_miss {α : Type} (st : CompilerState) (key : Nat) (segs : List String)
    (subs : List α) (h : cacheFind st.cache key = none) :
    html st key segs subs =
      ({ cache := (key, createTemplateCacheEntry segs) :: st.cache
         count := st.count + 1 },
       { partMeta := (createTemplateCacheEntry segs).partMeta
         substitutions := subs
         templateStrings := (createTemplateCacheEntry segs).templateStrings
         templateWithPlaceholders :=
           (createTemplateCacheEntry segs).templateWithPlaceholders }) := by
  simp [html, h, cacheFind_cons_self]

/-- C9: re-evaluating the same tagged-template call site (same static-segment
object `key`) returns template results whose `partMeta` and placeholder
markup both equal the single cached compiled entry; the second call leaves
the compiler state untouched (no recompilation), at most one compilation is
charged across the first call, and each result carries its own substitution
list. -/
theorem c9_html_cache_reuse {α : Type} (st : CompilerState) (key : Nat)
    (segs : List String) (v1 v2 : List α) :
    (html (html st key segs v1).1 key segs v2).1 = (html st key segs v1).1
    ∧ (∃ e, cacheFind (html st key segs v1).1.cache key = some e
        ∧ (html st key segs v1).2.partMeta = e.partMeta
        ∧ (html (html st key segs v1).1 key segs v2).2.partMeta = e.partMeta
        ∧ (html st key segs v1).2.templateWithPlaceholders =
            e.templateWithPlaceholders
        ∧ (html (html st key segs v1).1 key segs v2).2.templateWithPlaceholders =
            e.templateWithPlaceholders)
    ∧ (html st key segs v1).1.count ≤ st.count + 1
    ∧ (html st key segs v1).2.substitutions = v1
    ∧ (html (html st key segs v1).1 key segs v2).2.substitutions = v2 := by
  cases h : cacheFind st.cache key with
  | none =>
    have h1 := html_miss st key segs v1 h
    have he2 : cacheFind (html st key segs v1).1.cache key =
        some (createTemplateCacheEntry segs) := by
      rw [h1]; exact cacheFind_cons_self key _ st.cache
    have h2 := html_found (html st key segs v1).1 key segs v2 _ he2
    refine ⟨by rw [h2], ⟨createTemplateCacheEntry segs, he2, ?_, by rw [h2], ?_, by rw [h2]⟩,
      by rw [h1], by rw [h1], by rw [h2]⟩
    · rw [h1]
    · rw [h1]
  | some e =>
    have h1 := html_found st key segs v1 e h
    have he2 : cacheFind (html st key segs v1).1.cache key = some e := by
      rw [h1]; exact h
    have h2 := html_found (html st key segs v1).1 key segs v2 _ he2
    refine ⟨by rw [h2], ⟨e, he2, by rw [h1], by rw [h2], by rw [h1], by rw [h2]⟩,
      ?_, by rw [h1], by rw [h2]⟩
    rw [h1]
    exact Nat.le_succ _

/-- Unfolded characterisation of `compileAux`: one descriptor per slot, in
segment order, classified by `classifySlot` at the running index. -/
theorem compileAux_meta (segs : List String) : ∀ idx : Nat,
    (compileAux idx segs).2.length = segs.length - 1
    ∧ ∀ j s, segs.get? j = some s → j + 1 < segs.length →
        (compileAux idx segs).2.get? j = some (classifySlot s (idx + j)) := by
  induction segs with
  | nil => intro idx; exact ⟨rfl, by intro j s hj hlt; simp at hlt⟩
  | cons s0 tail ih =>
    intro idx
    cases tail with
    | nil =>
      refine ⟨rfl, ?_⟩
      intro j s hj hlt
      simp at hlt
    | cons s1 rest =>
      have ihs := ih (idx + 1)
      constructor
      · simp [compileAux, ihs.1]
      · intro j s hj hlt
        cases j with
        | zero =>
          simp at hj
          subst hj
          simp [compileAux]
        | succ j =>
          have hj' : (s1 :: rest).get? j = some s := by simpa using hj
          have hlt' : j + 1 < (s1 :: rest).length := by
            simp at hlt ⊢
            omega
          have := ihs.2 j s hj' hlt'
          simp only [compileAux, List.get?_cons_succ]
          rw [this]
          congr 2
          omega

/-- C3 (amended): the compiler classifies interpolation slot `i` as `attr`
or `event` exactly when the leftmost match of
`reIsAttribute` = `/([^\s=>\x2f]+)\s*=\s*(['"])?[^'"]*$/` against the
preceding static segment succeeds (`findAttrMatch`), capturing the attribute
name `nm` of that leftmost match; within that case the slot is `event`
exactly when `nm` matches `/^on\w+$/i` (`on` followed by one or more word
characters: letters, digits or underscore, case-insensitively), recording
the event name as `nm` minus its two leading characters, lower-cased;
every other slot is `text`.  Classification and descriptor count depend only
on the static segments, never on the substitution values passed to `html`. -/
theorem c3_slot_classification (segs : List String) :
    (createTemplateCacheEntry segs).partMeta.length = segs.length - 1
    ∧ (∀ i s, segs.get? i = some s → i + 1 < segs.length →
        ∃ m, (createTemplateCacheEntry segs).partMeta.get? i = some m
          ∧ m.substitutionIndex = i
          ∧ (findAttrMatch s.data = none →
              m.ptype = PartKind.text ∧ m.attr = none ∧ m.event = none)
          ∧ (∀ nm, findAttrMatch s.data = some nm →
              (isOnEventName nm = true →
                m.ptype = PartKind.event
                ∧ m.event = some (jsToLower (String.mk (nm.data.drop 2))) ∧ m.attr = none)
              ∧ (isOnEventName nm = false →
                m.ptype = PartKind.attr ∧ m.attr = some nm ∧ m.event = none)))
    ∧ (∀ (α : Type) (st : CompilerState) (key : Nat) (subs : List α),
        cacheFind st.cache key = none →
        (html st key segs subs).2.partMeta =
          (createTemplateCacheEntry segs).partMeta) := by
  refine ⟨(compileAux_meta segs 0).1, ?_, ?_⟩
  · intro i s hi hlt
    have h := (compileAux_meta segs 0).2 i s hi hlt
    refine ⟨classifySlot s i, by simpa using h, ?_, ?_, ?_⟩
    · cases hm : findAttrMatch s.data with
      | none => simp [classifySlot, hm]
      | some nm =>
        by_cases he : isOnEventName nm
        · simp [classifySlot, hm, he]
        · simp [classifySlot, hm, he]
    · intro hm
      simp [classifySlot, hm]
    · intro nm hm
      constructor
      · intro he
        simp [classifySlot, hm, he]
      · intro he
        simp [classifySlot, hm, he]
  · intro α st key subs h
    rw [html_miss st key segs subs h]

/-- C3 counterexample to the claim as stated: for the static segment
`<a on1=` the in-progress attribute name captured by the compiler's regex is
`on1`, which does not match the claim's `on[a-zA-Z]+` pattern (its suffix is
a digit), yet the compiler classifies the slot as `event` (with event name
`1`), not as `attr`. -/
def claimOnLettersName (nm : String) : Bool :=
  match nm.data with
  | c1 :: c2 :: c3 :: rest =>
    (c1 == 'o' || c1 == 'O') && (c2 == 'n' || c2 == 'N') &&
      (c3 :: rest).all Char.isAlpha
  | _ => false

/-- C3 counterexample: the compiler's event test is `on\w+`, not the claim's
`on[a-zA-Z]+`; segment `<a on1=` is classified `event` though the claim
requires `attr`. -/
theorem c3_counterexample :
    findAttrMatch "<a on1=".data = some "on1"
    ∧ claimOnLettersName "on1" = false
    ∧ (createTemplateCacheEntry ["<a on1=", ">"]).partMeta =
        [{ ptype := PartKind.event
           attr := none
           event := some "1"
           substitutionIndex := 0
           substitutionPlaceholder := "<!--$event-0$-->" }] := by
  refine ⟨by decide, by decide, by decide⟩

/-- Witness for `c3_slot_classification` at a concrete input, discharging the
cache-miss hypothesis of its substitution-independence conjunct. -/
theorem c3_slot_classification_witness :
    cacheFind (CompilerState.mk [] 0).cache 5 = none
    ∧ (html (CompilerState.mk [] 0) 5 ["<p>", "</p>"] ([3] : List Nat)).2.partMeta =
        (createTemplateCacheEntry ["<p>", "</p>"]).partMeta :=
  ⟨rfl, (c3_slot_classification ["<p>", "</p>"]).2.2 Nat (CompilerState.mk [] 0) 5 [3] rfl⟩

/-! ## Part 2: the fragment serializer (`serializeHTMLfragment.ts`) -/

/-- Attribute of a serialized element: qualified name, value, and whether the
attribute has a namespace (namespaced attributes keep their qualified name,
others are emitted with the lower-cased local name, here modelled as the
lower-cased name). -/
structure SAttr where
  name : String
  value : String
  namespaced : Bool
  deriving DecidableEq, Repr

mutual
/-- Node of a serialized tree.  An element carries its tag name, attributes,
optionally an attached shadow root and its child nodes; `template` elements
(tag name `template`, case-insensitively) expose their content fragment as
`children`, matching the DOM where a template's content is substituted for
the element before child serialization. -/
inductive SNode where
  | elem (tag : String) (attrs : List SAttr) (shadow : Option SShadow)
      (children : List SNode) : SNode
  | stext (data : String) : SNode
  | scomment (data : String) : SNode
  | spi (target : String) (data : String) : SNode
  | sdoctype (name : String) : SNode
  | sfrag (children : List SNode) : SNode

/-- Shadow root data: identity (for membership tests against
`options.shadowRoots`), mode string, the three boolean creation flags and the
shadow content. -/
inductive SShadow where
  | mk (sid : Nat) (mode : String) (delegatesFocus : Bool) (serializable : Bool)
      (clonable : Bool) (children : List SNode) : SShadow
end

/-- Identity of a shadow root. -/
def SShadow.sid : SShadow → Nat
  | .mk i _ _ _ _ _ => i

/-- Mode string of a shadow root. -/
def SShadow.mode : SShadow → String
  | .mk _ m _ _ _ _ => m

/-- The `delegatesFocus` creation flag. -/
def SShadow.delegatesFocus : SShadow → Bool
  | .mk _ _ d _ _ _ => d

/-- The `serializable` creation flag. -/
def SShadow.serializable : SShadow → Bool
  | .mk _ _ _ s _ _ => s

/-- The `clonable` creation flag. -/
def SShadow.clonable : SShadow → Bool
  | .mk _ _ _ _ c _ => c

/-- Content of a shadow root. -/
def SShadow.children : SShadow → List SNode
  | .mk _ _ _ _ _ cs => cs

/-- Serialization options (`GetHTMLOptions`): the absent-options case is the
`false`/empty case, matching the optional-chaining reads in the source. -/
structure GetHTMLOptions where
  serializableShadowRoots : Bool := false
  shadowRoots : List Nat := []
  deriving DecidableEq, Repr

/-- The source's `voidElements` set. -/
def voidElements : List String :=
  ["area", "base", "br", "col", "embed", "hr", "img", "input", "link",
   "meta", "source", "track", "wbr"]

/-- The source's `obsoleteElements` set. -/
def obsoleteElements : List String :=
  ["basefont", "bgsound", "frame", "keygen", "param"]

/-- The source's `rawTextElements` set (script, style and the historical
raw-text tags). -/
def rawTextElements : List String :=
  ["script", "style", "xmp", "iframe", "noembed", "noframes", "plaintext",
   "noscript"]

/-- Replace every occurrence of character `c` by the string `r`, as one
global single-character regex replacement does. -/
def replaceAllChar (l : List Char) (c : Char) (r : List Char) : List Char :=
  l.flatMap (fun x => if x == c then r else [x])

/-- The source's `escapeAttribute`: `&`, `"`, `<`, replaced in this order. -/
def escapeAttribute (v : String) : String :=
  String.mk (replaceAllChar (replaceAllChar (replaceAllChar v.data
    '&' "&amp;".data) '"' "&quot;".data) '<' "&lt;".data)

/-- The source's `escapeText`: `&`, U+00A0, `<`, `>`, replaced in this
order. -/
def escapeText (v : String) : String :=
  String.mk (replaceAllChar (replaceAllChar (replaceAllChar (replaceAllChar
    v.data '&' "&amp;".data) '\u00A0' "&nbsp;".data) '<' "&lt;".data)
    '>' "&gt;".data)

/-- Serialized form of one attribute inside an open tag. -/
def attrString (a : SAttr) : String :=
  " " ++ (if a.namespaced then a.name else jsToLower a.name) ++ "=\"" ++
    escapeAttribute a.value ++ "\""

/-- Serialized form of an attribute list. -/
def attrsString : List SAttr → String
  | [] => ""
  | a :: rest => attrString a ++ attrsString rest

mutual
/-- The exported `serializeHTMLfragment`: serializes the children of `node`
(and, for a shadow host whose shadow root passes the gate, a synthetic
declarative-shadow-DOM `template` element before them), never `node`
itself. -/
def serializeHTMLfragment (node : SNode) (opts : GetHTMLOptions) : String :=
  match node with
  | .elem tag _attrs shadow children =>
    if voidElements.contains (jsToLower tag)
        || obsoleteElements.contains (jsToLower tag) then ""
    else if jsToLower tag == "template" then
      serializeChildren children none opts
    else
      (match shadow with
       | some (.mk sid mode df ser cl shChildren) =>
         if (opts.serializableShadowRoots && ser)
             || opts.shadowRoots.contains sid then
           "<template shadowrootmode=\"" ++ mode ++ "\"" ++
             (if df then " shadowrootdelegatesfocus=\"\"" else "") ++
             (if ser then " shadowrootserializable=\"\"" else "") ++
             (if cl then " shadowrootclonable=\"\"" else "") ++
             ">" ++ serializeChildren shChildren none opts ++ "</template>"
         else ""
       | none => "") ++ serializeChildren children (some tag) opts
  | .sfrag children => serializeChildren children none opts
  | _ => ""
termination_by (sizeOf node, 0)

/-- Serialize a child-node list; `parentTag` is the tag name of the parent
when the parent is an element (`none` when it is a fragment or shadow root),
used for the raw-text rule of text children. -/
def serializeChildren (children : List SNode) (parentTag : Option String)
    (opts : GetHTMLOptions) : String :=
  match children with
  | [] => ""
  | n :: rest =>
    serializeChildNode n parentTag opts ++ serializeChildren rest parentTag opts
termination_by (sizeOf children, 0)

/-- Serialize one child node, dispatching on its node type as the source's
`switch` does. -/
def serializeChildNode (n : SNode) (parentTag : Option String)
    (opts : GetHTMLOptions) : String :=
  match n with
  | .elem tag attrs shadow children =>
    let t := jsToLower tag
    let openTag := "<" ++ t ++ attrsString attrs ++ ">"
    if voidElements.contains t || obsoleteElements.contains t then openTag
    else
      openTag ++ serializeHTMLfragment (.elem tag attrs shadow children) opts
        ++ "</" ++ t ++ ">"
  | .stext d =>
    match parentTag with
    | some p => if rawTextElements.contains (jsToLower p) then d else escapeText d
    | none => escapeText d
  | .scomment d => "<!--" ++ d ++ "-->"
  | .spi target d => "<?" ++ target ++ " " ++ d ++ ">"
  | .sdoctype nm => "<!DOCTYPE " ++ nm ++ ">"
  | .sfrag _ => ""
termination_by (sizeOf n, 1)
end

/-- Claim-side gate for emitting the declarative-shadow-DOM wrapper, as the
claim words it: the shadow root must be serializable, and either the
`serializableShadowRoots` option is set or the root is listed in
`shadowRoots`. -/
def claimShadowWrapperGate (serializable ssrOption listed : Bool) : Bool :=
  serializable && (ssrOption || listed)

/-- C7 counterexample: a non-serializable shadow root that is listed in
`options.shadowRoots` still gets a `<template shadowrootmode>` wrapper from
the code, although the claim's gate (which requires serializability
unconditionally) is false for it. -/
theorem c7_counterexample :
    serializeHTMLfragment
        (SNode.elem "my-widget" [] (some (SShadow.mk 0 "open" false false false [])) [])
        { serializableShadowRoots := false, shadowRoots := [0] } =
      "<template shadowrootmode=\"open\"></template>"
    ∧ claimShadowWrapperGate false false true = false := by
  refine ⟨?_, rfl⟩
  simp +decide [serializeHTMLfragment, serializeChildren]

/-- C7 (amended): for a non-void, non-obsolete, non-template shadow-host
element, the serialization is the synthetic
`<template shadowrootmode="...">` wrapper followed by the serialized
light-DOM children, where the wrapper is present if and only if either the
`serializableShadowRoots` option is set and the shadow root is serializable,
or the shadow root is listed in `options.shadowRoots`; the three boolean
attributes appear exactly when the corresponding flag is true, and the
shadow content is serialized recursively with the same options. -/
theorem c7_shadow_wrapper_gate (tag : String) (attrs : List SAttr)
    (sid : Nat) (mode : String) (df ser cl : Bool) (shChildren : List SNode)
    (children : List SNode) (opts : GetHTMLOptions)
    (hv : voidElements.contains (jsToLower tag) = false)
    (ho : obsoleteElements.contains (jsToLower tag) = false)
    (ht : (jsToLower tag == "template") = false) :
    serializeHTMLfragment
        (SNode.elem tag attrs (some (SShadow.mk sid mode df ser cl shChildren))
          children) opts =
      (if (opts.serializableShadowRoots && ser)
          || opts.shadowRoots.contains sid then
        "<template shadowrootmode=\"" ++ mode ++ "\"" ++
          (if df then " shadowrootdelegatesfocus=\"\"" else "") ++
          (if ser then " shadowrootserializable=\"\"" else "") ++
          (if cl then " shadowrootclonable=\"\"" else "") ++
          ">" ++ serializeChildren shChildren none opts ++ "</template>"
      else "") ++ serializeChildren children (some tag) opts := by
  have hv' : ¬(jsToLower tag ∈ voidElements) := by simpa using hv
  have ho' : ¬(jsToLower tag ∈ obsoleteElements) := by simpa using ho
  have ht' : ¬(jsToLower tag = "template") := by simpa using ht
  rw [serializeHTMLfragment]
  simp [hv', ho', ht']

/-- Witness for `c7_shadow_wrapper_gate` at a concrete serializable shadow
root requested via `serializableShadowRoots`. -/
theorem c7_shadow_wrapper_gate_witness :
    (voidElements.contains (jsToLower "my-el") = false
      ∧ obsoleteElements.contains (jsToLower "my-el") = false
      ∧ (jsToLower "my-el" == "template") = false)
    ∧ serializeHTMLfragment
        (SNode.elem "my-el" []
          (some (SShadow.mk 7 "open" true true false [SNode.stext "hi"]))
          [SNode.scomment "c"])
        { serializableShadowRoots := true, shadowRoots := [] } =
      (if ((true : Bool) && true) || ([] : List Nat).contains 7 then
        "<template shadowrootmode=\"open\"" ++
          (if true then " shadowrootdelegatesfocus=\"\"" else "") ++
          (if true then " shadowrootserializable=\"\"" else "") ++
          (if false then " shadowrootclonable=\"\"" else "") ++
          ">" ++ serializeChildren [SNode.stext "hi"] none
            { serializableShadowRoots := true, shadowRoots := [] } ++
          "</template>"
      else "") ++ serializeChildren [SNode.scomment "c"] (some "my-el")
        { serializableShadowRoots := true, shadowRoots := [] } := by
  refine ⟨⟨rfl, rfl, rfl⟩, ?_⟩
  have h := c7_shadow_wrapper_gate "my-el" [] 7 "open" true true false
    [SNode.stext "hi"] [SNode.scomment "c"]
    { serializableShadowRoots := true, shadowRoots := [] } rfl rfl rfl
  simpa using h

/-- Claim-side serialization of a text node, as the claim words it: verbatim
under a raw-text parent, `&`/`<`-only escaping under an escapable-raw-text
parent (`textarea`, `title`), full escaping otherwise. -/
def claimTextSerialization (parentTag : Option String) (d : String) : String :=
  match parentTag with
  | some p =>
    if rawTextElements.contains (jsToLower p) then d
    else if ["textarea", "title"].contains (jsToLower p) then
      String.mk (replaceAllChar (replaceAllChar d.data '&' "&amp;".data)
        '<' "&lt;".data)
    else escapeText d
  | none => escapeText d

/-- C8 counterexample: the code escapes text under `title` with the full
`escapeText` (so `>` becomes `&gt;`), while the claim's escapable-raw-text
rule would leave `>` untouched. -/
theorem c8_counterexample :
    serializeHTMLfragment (SNode.elem "title" [] none [SNode.stext "a>b"])
        {} = "a&gt;b"
    ∧ claimTextSerialization (some "title") "a>b" = "a>b" := by
  constructor
  · simp +decide [serializeHTMLfragment, serializeChildren, serializeChildNode,
      escapeText, replaceAllChar]
  · simp +decide [claimTextSerialization, replaceAllChar]

/-- C8 (amended): a text node whose immediate parent is a raw-text element
(`script`, `style`, `xmp`, `iframe`, `noembed`, `noframes`, `plaintext`,
`noscript`) is emitted verbatim; every other text node — including text under
`textarea` and `title` — is escaped with `escapeText` (`&` to `&amp;`,
U+00A0 to `&nbsp;`, `<` to `&lt;`, `>` to `&gt;`), and a text child of a
fragment or shadow root is likewise fully escaped. -/
theorem c8_text_escaping (tag : String) (d : String) (opts : GetHTMLOptions)
    (hv : voidElements.contains (jsToLower tag) = false)
    (ho : obsoleteElements.contains (jsToLower tag) = false)
    (ht : (jsToLower tag == "template") = false) :
    serializeHTMLfragment (SNode.elem tag [] none [SNode.stext d]) opts =
      (if rawTextElements.contains (jsToLower tag) then d else escapeText d)
    ∧ serializeHTMLfragment (SNode.sfrag [SNode.stext d]) opts = escapeText d := by
  have hv' : ¬(jsToLower tag ∈ voidElements) := by simpa using hv
  have ho' : ¬(jsToLower tag ∈ obsoleteElements) := by simpa using ho
  have ht' : ¬(jsToLower tag = "template") := by simpa using ht
  constructor
  · rw [serializeHTMLfragment]
    simp [hv', ho', ht', serializeChildren, serializeChildNode]
  · rw [serializeHTMLfragment]
    simp [serializeChildren, serializeChildNode]

/-- Witness for `c8_text_escaping` at `script` (raw text, emitted verbatim)
and at a fragment parent. -/
theorem c8_text_escaping_witness :
    (voidElements.contains (jsToLower "script") = false
      ∧ obsoleteElements.contains (jsToLower "script") = false
      ∧ (jsToLower "script" == "template") = false)
    ∧ serializeHTMLfragment
        (SNode.elem "script" [] none [SNode.stext "1 < 2 && 3"]) {} =
      (if rawTextElements.contains (jsToLower "script") then "1 < 2 && 3"
       else escapeText "1 < 2 && 3")
    ∧ serializeHTMLfragment (SNode.sfrag [SNode.stext "1 < 2 && 3"]) {} =
      escapeText "1 < 2 && 3" := by
  refine ⟨⟨rfl, rfl, rfl⟩, ?_, ?_⟩
  · exact (c8_text_escaping "script" "1 < 2 && 3" {} rfl rfl rfl).1
  · exact (c8_text_escaping "script" "1 < 2 && 3" {} rfl rfl rfl).2

/-! ## Part 3: the incremental renderer (path-based `render.ts`)

The renderer works on live DOM nodes.  We model the document as a store of
nodes indexed by numeric identities; elements carry attributes, attached
event listeners and child identities, and a detached document fragment is a
`frag` node.  Substitution values model JavaScript values with explicit
object identities so that reference equality (`===`) is expressible. -/

/-- Data carried by one DOM node. -/
inductive NodeData where
  | elem (tag : String) (attrs : List (String × String))
      (listeners : List (String × Nat)) (children : List Nat)
  | txt (data : String)
  | com (data : String)
  | frag (children : List Nat)
  deriving DecidableEq, Repr

/-- The document: a store of nodes and the next fresh identity. -/
structure Dom where
  store : List (Nat × NodeData)
  nextId : Nat
  deriving DecidableEq, Repr

/-- Static template tree (the parsed content of the cached
`HTMLTemplateElement`). -/
inductive DTree where
  | elem (tag : String) (attrs : List (String × String)) (children : List DTree)
  | txt (data : String)
  | com (data : String)

/-- Part descriptor of the path-based compiler (`PartMeta` in the
path-based `html.ts`): `kind` is the source's `type` field. -/
structure PartMeta where
  kind : PartKind
  path : List Nat
  attr : Option String := none
  event : Option String := none
  deriving DecidableEq, Repr

/-- JavaScript substitution values with explicit object identities.
`handleEv id fnId` is an object (identity `id`) exposing a callable
`handleEvent` whose function identity is `fnId`; `obj` is any other
non-array non-template-result object, and `tmpl` is a Template Result (the
only values satisfying the source's structural `isTemplateResult` check in
this model). -/
inductive Value where
  | str (s : String)
  | intV (n : Int)
  | boolV (b : Bool)
  | nullV
  | undefV
  | fn (id : Nat)
  | handleEv (id : Nat) (fnId : Nat)
  | obj (id : Nat)
  | arr (id : Nat) (items : List Value)
  | tmpl (id : Nat) (partMeta : List PartMeta) (content : List DTree)
      (substitutions : List Value)

/-- Template result consumed by the renderer: compiled part descriptors,
template content, substitution values. -/
structure TemplateResultV where
  partMeta : List PartMeta
  content : List DTree
  substitutions : List Value

/-- Template-result view of a value (the `isTemplateResult` test plus field
access). -/
def Value.toTR : Value → Option TemplateResultV
  | .tmpl _ m c s => some { partMeta := m, content := c, substitutions := s }
  | _ => none

/-- Array view of a value (`Array.isArray` plus element access). -/
def Value.arrItems : Value → Option (List Value)
  | .arr _ items => some items
  | _ => none

/-- JavaScript strict equality `===`: value equality on primitives,
identity on objects. -/
def jsEq : Value → Value → Bool
  | .str a, .str b => a == b
  | .intV a, .intV b => a == b
  | .boolV a, .boolV b => a == b
  | .nullV, .nullV => true
  | .undefV, .undefV => true
  | .fn a, .fn b => a == b
  | .handleEv a _, .handleEv b _ => a == b
  | .obj a, .obj b => a == b
  | .arr a _, .arr b _ => a == b
  | .tmpl a _ _ _, .tmpl b _ _ _ => a == b
  | _, _ => false

/-- Comma-separated join, as `Array.prototype.join` with the default
separator. -/
def joinComma : List String → String
  | [] => ""
  | [s] => s
  | s :: s2 :: rest => s ++ "," ++ joinComma (s2 :: rest)

mutual
/-- JavaScript `String(v)` coercion.  Function sources are abbreviated to
`function`; arrays join their items with commas, rendering `null` and
`undefined` items as empty strings. -/
def toStr : Value → String
  | .str s => s
  | .intV n => toString n
  | .boolV b => if b then "true" else "false"
  | .nullV => "null"
  | .undefV => "undefined"
  | .fn _ => "function"
  | .handleEv _ _ => "[object Object]"
  | .obj _ => "[object Object]"
  | .tmpl _ _ _ _ => "[object Object]"
  | .arr _ items => joinComma (toStrList items)

/-- Item-wise `String` coercion for array joining. -/
def toStrList : List Value → List String
  | [] => []
  | .nullV :: rest => "" :: toStrList rest
  | .undefV :: rest => "" :: toStrList rest
  | v :: rest => toStr v :: toStrList rest
end

/-- The listener computed from a substitution for an event part: the value
itself when it is a function, its `handleEvent` method when it is an object
exposing a callable one (`isHandleEventObject`), nothing otherwise. -/
def computeListener : Value → Option Nat
  | .fn i => some i
  | .handleEv _ f => some f
  | _ => none

/-- Live part records of the renderer (`Part` in `render.ts`). -/
inductive Part where
  | text (nodes : List Nat) (lastValue : Value)
  | attr (node : Nat) (attrName : String)
  | event (node : Nat) (eventName : String) (lastEventListener : Option Nat)

/-- Node instance recorded per container (`NodeInstance`). -/
structure NodeInstance where
  parent : Option Nat
  nodes : List Nat
  parts : List Part

/-- Renderer state: the document plus the per-container `nodeInstanceCache`. -/
structure RState where
  dom : Dom
  cache : List (Nat × NodeInstance)

/-- Node lookup in the store. -/
def lookupNode (d : Dom) (n : Nat) : Option NodeData :=
  (d.store.find? (fun e => e.1 == n)).map (fun e => e.2)

/-- Children carried by a node datum. -/
def childrenOfData : NodeData → List Nat
  | .elem _ _ _ cs => cs
  | .frag cs => cs
  | _ => []

/-- The `childNodes` of a node. -/
def childNodes (d : Dom) (n : Nat) : List Nat :=
  match lookupNode d n with
  | some data => childrenOfData data
  | none => []

/-- Replace the datum stored for a node. -/
def setNodeData (d : Dom) (n : Nat) (data : NodeData) : Dom :=
  { d with store := d.store.map (fun e => if e.1 == n then (n, data) else e) }

/-- The `parentNode` of a node: the node whose child list contains it. -/
def parentOf (d : Dom) (n : Nat) : Option Nat :=
  (d.store.find? (fun e => (childrenOfData e.2).contains n)).map (fun e => e.1)

/-- The source's `getNodeFromPathViaAncesterNode`: walk `childNodes`
indices from the ancestor; a missing index is a resolution failure. -/
def getNodeFromPathViaAncesterNode (d : Dom) (path : List Nat) (root : Nat) :
    Option Nat :=
  path.foldl
    (fun acc i =>
      match acc with
      | some cur => (childNodes d cur).get? i
      | none => none)
    (some root)

/-- Attribute update within an attribute list (`setAttribute` semantics:
replace in place or append). -/
def setAttrList : List (String × String) → String → String → List (String × String)
  | [], name, v => [(name, v)]
  | (k, w) :: rest, name, v =>
    if k == name then (k, v) :: rest else (k, w) :: setAttrList rest name v

/-- `Element.setAttribute`. -/
def setAttribute (d : Dom) (n : Nat) (name v : String) : Dom :=
  match lookupNode d n with
  | some (.elem t a l cs) => setNodeData d n (.elem t (setAttrList a name v) l cs)
  | _ => d

/-- `addEventListener`: idempotent for an already-registered
(event, listener) pair, as in the DOM. -/
def addEventListener (d : Dom) (n : Nat) (ev : String) (l : Nat) : Dom :=
  match lookupNode d n with
  | some (.elem t a ls cs) =>
    if ls.any (fun p => p.1 == ev && p.2 == l) then d
    else setNodeData d n (.elem t a (ls ++ [(ev, l)]) cs)
  | _ => d

/-- `removeEventListener`. -/
def removeEventListener (d : Dom) (n : Nat) (ev : String) (l : Nat) : Dom :=
  match lookupNode d n with
  | some (.elem t a ls cs) =>
    setNodeData d n (.elem t a (ls.filter (fun p => !(p.1 == ev && p.2 == l))) cs)
  | _ => d

/-- Listeners currently attached to a node for an event name. -/
def listenersOf (d : Dom) (n : Nat) (ev : String) : List Nat :=
  match lookupNode d n with
  | some (.elem _ _ ls _) => (ls.filter (fun p => p.1 == ev)).map (fun p => p.2)
  | _ => []

/-- `document.createTextNode`. -/
def createTextNode (d : Dom) (s : String) : Dom × Nat :=
  ({ store := (d.nextId, .txt s) :: d.store, nextId := d.nextId + 1 }, d.nextId)

/-- Remove a node from a child list wherever it occurs in one datum. -/
def removeChildEverywhere (n : Nat) : NodeData → NodeData
  | .elem t a l cs => .elem t a l (cs.filter (fun c => c != n))
  | .frag cs => .frag (cs.filter (fun c => c != n))
  | data => data

/-- Detach a node from whatever parent holds it (the implicit move
performed by `appendChild`/`replaceChild` when inserting a node that
already has a parent). -/
def detachGlobal (d : Dom) (n : Nat) : Dom :=
  { d with store := d.store.map (fun e => (e.1, removeChildEverywhere n e.2)) }

/-- Detach a list of nodes (building a document fragment from them). -/
def detachAll (d : Dom) (ns : List Nat) : Dom :=
  ns.foldl detachGlobal d

/-- Overwrite the child list of an element or fragment node. -/
def setChildrenOf (d : Dom) (p : Nat) (cs : List Nat) : Dom :=
  match lookupNode d p with
  | some (.elem t a l _) => setNodeData d p (.elem t a l cs)
  | some (.frag _) => setNodeData d p (.frag cs)
  | _ => d

/-- `node.parentNode?.replaceChild(fragment, node)` where the fragment holds
`ns`: detach `ns` (fragment building), then splice them in place of `node`
in its parent's child list, if `node` has a parent. -/
def replaceNodeWith (d : Dom) (node : Nat) (ns : List Nat) : Dom :=
  let d1 := detachAll d ns
  match parentOf d1 node with
  | some p =>
    setChildrenOf d1 p
      ((childNodes d1 p).flatMap (fun c => if c == node then ns else [c]))
  | none => d1

/-- `container.appendChild(n)`: detach `n` from its previous parent and
append it to the container's children. -/
def appendChildMove (d : Dom) (parent : Nat) (n : Nat) : Dom :=
  let d1 := detachGlobal d n
  match lookupNode d1 parent with
  | some (.elem t a l cs) => setNodeData d1 parent (.elem t a l (cs ++ [n]))
  | some (.frag cs) => setNodeData d1 parent (.frag (cs ++ [n]))
  | _ => d1

/-- The `textContent` setter: sets the data of a text or comment node;
replaces the children of an element or fragment by one fresh text node (or
none, for the empty string). -/
def setTextContentOp (d : Dom) (n : Nat) (s : String) : Dom :=
  match lookupNode d n with
  | some (.txt _) => setNodeData d n (.txt s)
  | some (.com _) => setNodeData d n (.com s)
  | some (.elem t a l _) =>
    if s == "" then setNodeData d n (.elem t a l [])
    else
      let r := createTextNode d s
      setNodeData r.1 n (.elem t a l [r.2])
  | some (.frag _) =>
    if s == "" then setNodeData d n (.frag [])
    else
      let r := createTextNode d s
      setNodeData r.1 n (.frag [r.2])
  | none => d

mutual
/-- Allocation of one template tree as fresh DOM nodes (part of
`template.content.cloneNode(true)`). -/
def cloneNodeTree : Dom → DTree → Dom × Nat
  | d, .elem tag attrs children =>
    let r := cloneForest d children
    ({ store := (r.1.nextId, .elem tag attrs [] r.2) :: r.1.store
       nextId := r.1.nextId + 1 }, r.1.nextId)
  | d, .txt s =>
    ({ store := (d.nextId, .txt s) :: d.store, nextId := d.nextId + 1 }, d.nextId)
  | d, .com s =>
    ({ store := (d.nextId, .com s) :: d.store, nextId := d.nextId + 1 }, d.nextId)

/-- Allocation of a template forest as fresh DOM nodes, left to right. -/
def cloneForest : Dom → List DTree → Dom × List Nat
  | d, [] => (d, [])
  | d, t :: rest =>
    let r := cloneNodeTree d t
    let q := cloneForest r.1 rest
    (q.1, r.2 :: q.2)
end

/-- `template.content.cloneNode(true)`: allocate the forest and a fragment
root holding it. -/
def cloneContent (d : Dom) (content : List DTree) : Dom × Nat :=
  let r := cloneForest d content
  ({ store := (r.1.nextId, .frag r.2) :: r.1.store, nextId := r.1.nextId + 1 },
    r.1.nextId)

/-- Lookup in the `nodeInstanceCache`. -/
def niFind (c : List (Nat × NodeInstance)) (k : Nat) : Option NodeInstance :=
  (c.find? (fun e => e.1 == k)).map (fun e => e.2)

/-- `nodeInstanceCache.set`. -/
def niSet (c : List (Nat × NodeInstance)) (k : Nat) (v : NodeInstance) :
    List (Nat × NodeInstance) :=
  if c.any (fun e => e.1 == k) then
    c.map (fun e => if e.1 == k then (k, v) else e)
  else (k, v) :: c

/-- In-place mutation of one recorded part of a cached instance. -/
def niModifyPart (c : List (Nat × NodeInstance)) (k : Nat) (idx : Nat)
    (p : Part) : List (Nat × NodeInstance) :=
  c.map (fun e =>
    if e.1 == k then (k, { e.2 with parts := e.2.parts.set idx p }) else e)

/-- In-place mutation of only the `lastValue` field of a recorded text part
(the assignment `part.lastValue = substitution` after a nested render may
already have replaced the part's nodes). -/
def niModifyLastValue (c : List (Nat × NodeInstance)) (k : Nat) (idx : Nat)
    (v : Value) : List (Nat × NodeInstance) :=
  c.map (fun e =>
    if e.1 == k then
      (k, { e.2 with parts :=
        match e.2.parts.get? idx with
        | some (.text ns _) => e.2.parts.set idx (.text ns v)
        | _ => e.2.parts })
    else e)

/-- Write one part of the container's instance (JavaScript mutates the part
object in place; the cache entry is the same object). -/
def writePart (st : RState) (container idx : Nat) (p : Part) : RState :=
  { st with cache := niModifyPart st.cache container idx p }

/-- Write only the last value of a text part of the container's instance. -/
def writeLastValue (st : RState) (container idx : Nat) (v : Value) : RState :=
  { st with cache := niModifyLastValue st.cache container idx v }

/-- Update of one event part (`case 'event'` of the render update loop):
remove the last attached listener if any, compute the new listener from the
substitution, attach and record it if present. -/
def updateEventPart (d : Dom) (n : Nat) (ev : String) (last : Option Nat)
    (v : Value) : Dom × Option Nat :=
  let listener := computeListener v
  let d1 :=
    match last with
    | some l => removeEventListener d n ev l
    | none => d
  match listener with
  | some l => (addEventListener d1 n ev l, some l)
  | none => (d1, last)

mutual
/-- The source's `createNodeInstance`: clone the template content, resolve
all part paths up front (the source comments that later DOM manipulation
would invalidate them), then perform the first-render substitution for each
part descriptor in order.  `fuel` bounds the recursion through nested
template results; `none` is fuel exhaustion or a thrown DOM exception. -/
def createNodeInstance : Nat → Dom → TemplateResultV →
    Option (Dom × NodeInstance)
  | 0, _, _ => none
  | f + 1, d, tr =>
    let c := cloneContent d tr.content
    let subNodes :=
      tr.partMeta.map (fun m => getNodeFromPathViaAncesterNode c.1 m.path c.2)
    match createParts f c.1 (tr.partMeta.zip subNodes) tr.substitutions 0 with
    | none => none
    | some q =>
      some (q.1, { parent := none, nodes := childNodes q.1 c.2, parts := q.2 })
termination_by structural f _ _ => f

/-- The body of the `partMeta.forEach` loop of `createNodeInstance`:
process the descriptors in order, threading the document and collecting the
recorded parts.  A descriptor whose placeholder node was not resolved is
skipped without recording a part; an event descriptor whose substitution
yields no listener attaches nothing and records no part. -/
def createParts : Nat → Dom → List (PartMeta × Option Nat) → List Value →
    Nat → Option (Dom × List Part)
  | 0, _, _, _, _ => none
  | _ + 1, d, [], _, _ => some (d, [])
  | f + 1, d, (m, nodeOpt) :: rest, subs, idx =>
    let sub := subs.getD idx Value.undefV
    match nodeOpt with
    | none => createParts f d rest subs (idx + 1)
    | some node =>
      match m.kind with
      | .attr =>
        let d1 := setAttribute d node (m.attr.getD "") (toStr sub)
        match createParts f d1 rest subs (idx + 1) with
        | none => none
        | some q => some (q.1, Part.attr node (m.attr.getD "") :: q.2)
      | .event =>
        match computeListener sub with
        | some l =>
          let d1 := addEventListener d node (m.event.getD "") l
          match createParts f d1 rest subs (idx + 1) with
          | none => none
          | some q => some (q.1, Part.event node (m.event.getD "") (some l) :: q.2)
        | none => createParts f d rest subs (idx + 1)
      | .text =>
        match sub.toTR with
        | some trf =>
          match createNodeInstance f d trf with
          | none => none
          | some r =>
            let d1 := replaceNodeWith r.1 node r.2.nodes
            match createParts f d1 rest subs (idx + 1) with
            | none => none
            | some q => some (q.1, Part.text r.2.nodes sub :: q.2)
        | none =>
          match sub.arrItems with
          | some items =>
            match materializeItems f d items with
            | none => none
            | some r =>
              let d1 := replaceNodeWith r.1 node r.2
              match createParts f d1 rest subs (idx + 1) with
              | none => none
              | some q => some (q.1, Part.text r.2 sub :: q.2)
          | none =>
            let r := createTextNode d (toStr sub)
            let d1 := replaceNodeWith r.1 node [r.2]
            match createParts f d1 rest subs (idx + 1) with
            | none => none
            | some q => some (q.1, Part.text [r.2] sub :: q.2)
termination_by structural f _ _ _ _ => f

/-- The array-materialization loop shared by first render and update: each
item that is a template result is materialized recursively and contributes
its top-level nodes; any other item becomes a fresh text node from its
stringified value; all nodes are concatenated in array order. -/
def materializeItems : Nat → Dom → List Value → Option (Dom × List Nat)
  | 0, _, _ => none
  | _ + 1, d, [] => some (d, [])
  | f + 1, d, item :: rest =>
    match item.toTR with
    | some trf =>
      match createNodeInstance f d trf with
      | none => none
      | some r =>
        match materializeItems f r.1 rest with
        | none => none
        | some q => some (q.1, r.2.nodes ++ q.2)
    | none =>
      let r := createTextNode d (toStr item)
      match materializeItems f r.1 rest with
      | none => none
      | some q => some (q.1, r.2 :: q.2)
termination_by structural f _ _ => f

/-- The source's `render`: on the first call for a container, materialize
the template result, append its top-level nodes to the container and record
the instance; on subsequent calls, patch the recorded parts in order
against the new substitution list. -/
def render : Nat → RState → TemplateResultV → Nat → Option RState
  | 0, _, _, _ => none
  | f + 1, st, tr, container =>
    match niFind st.cache container with
    | none =>
      match createNodeInstance f st.dom tr with
      | none => none
      | some r =>
        let inst := { r.2 with parent := some container }
        let d :=
          inst.nodes.foldl (fun dd n => appendChildMove dd container n) r.1
        some { dom := d, cache := niSet st.cache container inst }
    | some inst =>
      updatePartsAux f st tr.substitutions container 0 inst.parts.length
termination_by structural f _ _ _ => f

/-- The `instance.parts.forEach` update loop: `n` is the part count read at
entry; the part at each index is re-read from the cache because a nested
`render` call against the same container mutates the same part array in
place. -/
def updatePartsAux : Nat → RState → List Value → Nat → Nat → Nat →
    Option RState
  | 0, _, _, _, _, _ => none
  | f + 1, st, subs, container, idx, n =>
    if idx < n then
      match niFind st.cache container with
      | none => none
      | some inst =>
        match inst.parts.get? idx with
        | none => none
        | some part =>
          let sub := subs.getD idx Value.undefV
          match part with
          | .attr node a =>
            let d := setAttribute st.dom node a (toStr sub)
            updatePartsAux f { st with dom := d } subs container (idx + 1) n
          | .event node ev last =>
            let r := updateEventPart st.dom node ev last sub
            let st1 : RState :=
              { dom := r.1
                cache := niModifyPart st.cache container idx (.event node ev r.2) }
            updatePartsAux f st1 subs container (idx + 1) n
          | .text nodes lastValue =>
            match updateTextPart f st container idx nodes lastValue sub with
            | none => none
            | some st1 => updatePartsAux f st1 subs container (idx + 1) n
    else some st
termination_by structural f _ _ _ _ _ => f

/-- The `case 'text'` body of the update loop for one text part: skip when
the new substitution is reference-equal to the last recorded value;
otherwise dispatch on the shape of the new value exactly as the source
does, finishing with the `part.lastValue = substitution` write (except for
the array-level dirty skip, which breaks out before that write). -/
def updateTextPart : Nat → RState → Nat → Nat → List Nat → Value → Value →
    Option RState
  | 0, _, _, _, _, _, _ => none
  | f + 1, st, container, idx, nodes, lastValue, sub =>
    if jsEq sub lastValue then some st
    else
      match sub.toTR with
      | some trf =>
        match lastValue.toTR with
        | some trf0 =>
          match createNodeInstance f st.dom trf0 with
          | none => none
          | some r =>
            match
              (match r.2.parent with
               | some p => some p
               | none => nodes.head?.bind (fun n0 => parentOf r.1 n0)) with
            | none => none
            | some target =>
              match render f { dom := r.1, cache := st.cache } trf target with
              | none => none
              | some st1 => some (writeLastValue st1 container idx sub)
        | none =>
          match createNodeInstance f st.dom trf with
          | none => none
          | some r =>
            match nodes.head? with
            | none =>
              some (writePart { st with dom := r.1 } container idx
                (.text r.2.nodes sub))
            | some n0 =>
              let d := detachAll r.1 r.2.nodes
              if (childNodes d n0).contains n0 then
                let d1 :=
                  setChildrenOf d n0
                    ((childNodes d n0).flatMap
                      (fun c => if c == n0 then r.2.nodes else [c]))
                some (writePart { st with dom := d1 } container idx
                  (.text r.2.nodes sub))
              else none
      | none =>
        match sub.arrItems with
        | some items =>
          if (match lastValue.arrItems with
              | some litems =>
                litems.length == items.length &&
                  (items.zip litems).all (fun p => jsEq p.1 p.2)
              | none => false) then
            some st
          else
            match materializeItems f st.dom items with
            | none => none
            | some r =>
              match nodes.head? with
              | none => none
              | some n0 =>
                let d := detachAll r.1 r.2
                let d1 :=
                  match parentOf d n0 with
                  | some p => setChildrenOf d p r.2
                  | none => d
                some (writePart { st with dom := d1 } container idx
                  (.text r.2 sub))
        | none =>
          match nodes.head? with
          | none => none
          | some n0 =>
            let d := setTextContentOp st.dom n0 (toStr sub)
            some (writePart { st with dom := d } container idx
              (.text nodes sub))
termination_by structural f _ _ _ _ _ _ => f
end

/-- Initial renderer state shared by the concrete render scenarios: a single
empty `div` container with identity 0. -/
def rst0 : RState := ⟨⟨[(0, .elem "div" [] [] [])], 1⟩, []⟩

/-- Compiled descriptors of a template with an event slot on a `button`
followed by a text slot inside a `p`
(`html\u0060<button onclick="${h}"></button><p>${t}</p>\u0060` after the
path-based compiler removed the event attribute). -/
def c1meta : List PartMeta :=
  [{ kind := .event, path := [0], event := some "click" },
   { kind := .text, path := [1, 0] }]

/-- Cloneable content for `c1meta`. -/
def c1content : List DTree :=
  [DTree.elem "button" [] [], DTree.elem "p" [] [DTree.com "$text$"]]

/-- First-render template result: the event slot holds a string (neither a
function nor a `handleEvent` object), the text slot holds `"A"`. -/
def c1tr1 : TemplateResultV :=
  ⟨c1meta, c1content, [Value.str "x", Value.str "A"]⟩

/-- Update template result: the event slot now holds a function, the text
slot holds `"B"`. -/
def c1tr2 : TemplateResultV :=
  ⟨c1meta, c1content, [Value.fn 5, Value.str "B"]⟩

/-- C1: evaluation of the code at the failing input.  The template has two
part descriptors, but first-render materialization records only one live
part, because the event case pushes a part only when the initial
substitution yields a listener.  The text part therefore sits at index 0,
and the update render patches it with substitution index 0 — the event
slot's value (`String(fn)`, here `"function"`) — instead of `"B"`:
node 5 is the text node recorded for the text slot. -/
theorem c1_event_slot_shifts_part_indices :
    c1tr1.partMeta.length = 2
    ∧ (render 20 rst0 c1tr1 0).map
        (fun st => (niFind st.cache 0).map (fun inst => inst.parts.length)) =
      some (some 1)
    ∧ ((render 20 rst0 c1tr1 0).bind
        (fun st1 => render 20 st1 c1tr2 0)).map
        (fun st2 => lookupNode st2.dom 5) =
      some (some (.txt (toStr (Value.fn 5)))) := by
  refine ⟨rfl, by decide, by decide⟩

/-- Compiled descriptor of a template with one array text slot that has a
static element sibling
(`html\u0060<div><span>keep</span>${items}</div>\u0060`). -/
def c5meta : List PartMeta := [{ kind := .text, path := [0, 1] }]

/-- Cloneable content for `c5meta`: the `span` (allocated with identity 2)
is the static sibling that must survive updates. -/
def c5content : List DTree :=
  [DTree.elem "div" [] [DTree.elem "span" [] [DTree.txt "keep"], DTree.com "x"]]

/-- First-render template result: the array `["a"]` (object identity 100). -/
def c5tr1 : TemplateResultV := ⟨c5meta, c5content, [Value.arr 100 [Value.str "a"]]⟩

/-- Update template result: the array `["b"]` (a fresh object, identity 101),
failing both the reference and the array-level dirty checks. -/
def c5tr2 : TemplateResultV := ⟨c5meta, c5content, [Value.arr 101 [Value.str "b"]]⟩

/-- C5: evaluation of the code at the failing input.  After the first render
the part's parent `div` (identity 4) holds the static `span` (identity 2)
followed by the part's text node (identity 6).  The array update rebuilds
the node list (fresh text node 7) but then calls
`part.nodes[0].parentNode?.replaceChildren(fragment)`, which replaces ALL
children of the parent: afterwards the `div` holds exactly `[7]` — the
static `span` sibling has been removed (it still exists, detached, in the
store) although the claim requires siblings to remain in place. -/
theorem c5_array_update_replaces_all_children :
    (render 20 rst0 c5tr1 0).map (fun st => childNodes st.dom 4) = some [2, 6]
    ∧ ((render 20 rst0 c5tr1 0).bind
        (fun st1 => render 20 st1 c5tr2 0)).map
        (fun st2 => (childNodes st2.dom 4, lookupNode st2.dom 2,
          lookupNode st2.dom 7)) =
      some ([7], some (.elem "span" [] [] [1]), some (.txt "b")) := by
  refine ⟨by decide, by decide⟩

/-- C2: the dirty-check skip of the update loop's text case.  When the new
substitution is reference-equal (`===`, modelled by `jsEq`) to the part's
last recorded value, the text-part update returns the renderer state
entirely unchanged: no node replacement, no `textContent` write, no change
to the part's recorded node list, and no cache write at all. -/
theorem c2_text_part_skip_on_reference_equal (f : Nat) (st : RState)
    (container idx : Nat) (nodes : List Nat) (lastValue v : Value)
    (h : jsEq v lastValue = true) :
    updateTextPart (f + 1) st container idx nodes lastValue v = some st := by
  simp [updateTextPart, h]

/-- Witness for `c2_text_part_skip_on_reference_equal`: the same object
(identity 9) rendered twice into a text part. -/
theorem c2_text_part_skip_witness :
    jsEq (Value.obj 9) (Value.obj 9) = true
    ∧ updateTextPart 1 rst0 0 0 [4] (Value.obj 9) (Value.obj 9) = some rst0 :=
  ⟨rfl, c2_text_part_skip_on_reference_equal 0 rst0 0 0 [4] (Value.obj 9)
    (Value.obj 9) rfl⟩

/-- Compiled descriptor of a template with a single text slot inside an
element (`html\u0060<tag>${v}</tag>\u0060`). -/
def c6meta : List PartMeta := [{ kind := .text, path := [0, 0] }]

/-- Template result for `c6meta` over an arbitrary element tag and one
substitution value. -/
def c6tr (tag : String) (v : Value) : TemplateResultV :=
  ⟨c6meta, [DTree.elem tag [] [DTree.com "t"]], [v]⟩

/-- Renderer state after rendering `c6tr tag v` into the container: the
container (0) holds the element (2), whose single child is the text node
(4) carrying the string `s`; the recorded text part holds node 4 and the
last value `v`. -/
def c6state (tag s : String) (v : Value) : RState :=
  ⟨⟨[(4, .txt s), (3, .frag []), (2, .elem tag [] [] [4]), (1, .com "t"),
     (0, .elem "div" [] [] [2])], 5⟩,
   [(0, ⟨some 0, [2], [.text [4] v]⟩)]⟩

/-- First render of a scalar text slot: a fresh text node holding the
stringified scalar replaces the placeholder comment. -/
theorem c6_first_render (f : Nat) (tag : String) (v1 : Value)
    (h1 : v1.toTR = none) (h1a : v1.arrItems = none) :
    render (f + 4) rst0 (c6tr tag v1) 0 = some (c6state tag (toStr v1) v1) := by
  simp [render, createNodeInstance, createParts, rst0, c6tr, c6meta, c6state,
    cloneContent, cloneForest, cloneNodeTree, getNodeFromPathViaAncesterNode,
    childNodes, lookupNode, childrenOfData, createTextNode, replaceNodeWith,
    detachAll, detachGlobal, removeChildEverywhere, parentOf, setChildrenOf,
    setNodeData, appendChildMove, niFind, niSet, h1, h1a, List.find?]

/-- Update render of a scalar text slot with a different scalar: the update
loop writes `textContent` of the recorded text node in place; the store
keeps the same shape and allocates nothing. -/
theorem c6_update_render (f : Nat) (tag s : String) (v1 v2 : Value)
    (h2 : v2.toTR = none) (h2a : v2.arrItems = none)
    (hne : jsEq v2 v1 = false) :
    render (f + 4) (c6state tag s v1) (c6tr tag v2) 0 =
      some (c6state tag (toStr v2) v2) := by
  simp [render, updatePartsAux, updateTextPart, c6tr, c6meta, c6state,
    setTextContentOp, lookupNode, setNodeData, niFind, niModifyPart, writePart,
    childNodes, childrenOfData, h2, h2a, hne, List.find?]

/-- C6: rendering a scalar `v1` into the text slot of
`html\u0060<tag>${v}</tag>\u0060` and then re-rendering with a different scalar
`v2` mutates the existing text node in place: both renders leave the element
(node 2) with the single text child of identity 4 — the same node instance —
whose data is the stringified current scalar, the second render sets its
`textContent` to `String(v2)`, no node is replaced and no node is allocated
by the update (`nextId` unchanged). -/
theorem c6_scalar_update_in_place (f : Nat) (tag : String) (v1 v2 : Value)
    (h1 : v1.toTR = none) (h1a : v1.arrItems = none)
    (h2 : v2.toTR = none) (h2a : v2.arrItems = none)
    (hne : jsEq v2 v1 = false) :
    ∃ st1 st2,
      render (f + 4) rst0 (c6tr tag v1) 0 = some st1
      ∧ render (f + 4) st1 (c6tr tag v2) 0 = some st2
      ∧ childNodes st1.dom 2 = [4]
      ∧ lookupNode st1.dom 4 = some (.txt (toStr v1))
      ∧ childNodes st2.dom 2 = [4]
      ∧ lookupNode st2.dom 4 = some (.txt (toStr v2))
      ∧ st2.dom.nextId = st1.dom.nextId
      ∧ (niFind st2.cache 0).map (fun inst => inst.nodes) = some [2] :=
  ⟨c6state tag (toStr v1) v1, c6state tag (toStr v2) v2,
    c6_first_render f tag v1 h1 h1a,
    c6_update_render f tag (toStr v1) v1 v2 h2 h2a hne,
    rfl, rfl, rfl, rfl, rfl, rfl⟩

/-- Witness for `c6_scalar_update_in_place` at `tag := "p"`, `v1 := 1`,
`v2 := 2`. -/
theorem c6_scalar_update_in_place_witness :
    ((Value.intV 1).toTR = none ∧ (Value.intV 1).arrItems = none
      ∧ (Value.intV 2).toTR = none ∧ (Value.intV 2).arrItems = none
      ∧ jsEq (Value.intV 2) (Value.intV 1) = false)
    ∧ ∃ st1 st2,
      render 4 rst0 (c6tr "p" (Value.intV 1)) 0 = some st1
      ∧ render 4 st1 (c6tr "p" (Value.intV 2)) 0 = some st2
      ∧ childNodes st1.dom 2 = [4]
      ∧ lookupNode st1.dom 4 = some (.txt (toStr (Value.intV 1)))
      ∧ childNodes st2.dom 2 = [4]
      ∧ lookupNode st2.dom 4 = some (.txt (toStr (Value.intV 2)))
      ∧ st2.dom.nextId = st1.dom.nextId
      ∧ (niFind st2.cache 0).map (fun inst => inst.nodes) = some [2] :=
  ⟨⟨rfl, rfl, rfl, rfl, rfl⟩,
    c6_scalar_update_in_place 0 "p" (Value.intV 1) (Value.intV 2)
      rfl rfl rfl rfl rfl⟩

/-- Iterated event-part updates: apply the update step `k` times with the
same substitution, threading the document and the recorded last listener. -/
def iterateEventUpdates (d : Dom) (n : Nat) (ev : String) (last : Option Nat)
    (v : Value) : Nat → Dom × Option Nat
  | 0 => (d, last)
  | k + 1 =>
    let r := updateEventPart d n ev last v
    iterateEventUpdates r.1 n ev r.2 v k

/-- A further filter keeps an empty filter result empty. -/
theorem filter_nil_of_filter_nil {α : Type} (q r : α → Bool) (l : List α)
    (h : l.filter r = []) : (l.filter q).filter r = [] := by
  rw [List.filter_eq_nil_iff] at h ⊢
  intro a ha
  exact h a (List.mem_filter.mp ha).1

/-- If the pairs for event `ev` map exactly to `[x]`, removing the
`(ev, x)` listener leaves no pair for `ev`. -/
theorem removeListener_clears (ev : String) (x : Nat) :
    ∀ ls : List (String × Nat),
    (ls.filter (fun p => p.1 == ev)).map Prod.snd = [x] →
    (ls.filter (fun p => !(p.1 == ev && p.2 == x))).filter
      (fun p => p.1 == ev) = [] := by
  intro ls
  induction ls with
  | nil => intro h; simp at h
  | cons a tl ih =>
    obtain ⟨a1, a2⟩ := a
    intro h
    by_cases ha : (a1 == ev) = true
    · simp only [List.filter, ha, Bool.not_true] at h ⊢
      simp only [List.map] at h
      have hx : a2 = x := by
        have := congrArg (fun l => l.head?) h
        simpa using this
      have htl : (tl.filter (fun p => p.1 == ev)).map Prod.snd = [] := by
        have := congrArg (fun l => l.tail) h
        simpa using this
      have htl' : tl.filter (fun p => p.1 == ev) = [] :=
        List.map_eq_nil_iff.mp htl
      have hax : (a2 == x) = true := by simp [hx]
      simp only [hax, Bool.and_true, Bool.not_true]
      exact filter_nil_of_filter_nil _ _ tl htl'
    · have ha' : (a1 == ev) = false := by simpa using ha
      simp only [List.filter, ha', Bool.false_and, Bool.not_false] at h ⊢
      exact ih h

/-- A listener list with no pair for `ev` does not already register any
listener for `ev`. -/
theorem any_ev_false (ev : String) (l' : Nat) (ls : List (String × Nat))
    (h : ls.filter (fun p => p.1 == ev) = []) :
    ls.any (fun p => p.1 == ev && p.2 == l') = false := by
  rw [List.any_eq_false]
  intro p hp
  have hne := List.filter_eq_nil_iff.mp h p hp
  simp only [Bool.not_eq_true] at hne
  simp [hne]

/-- Looking a node up after overwriting it yields the new datum. -/
theorem lookup_set_store (n : Nat) (data : NodeData) :
    ∀ s : List (Nat × NodeData), (s.find? (fun e => e.1 == n)).isSome →
    (s.map (fun e => if e.1 == n then (n, data) else e)).find?
      (fun e => e.1 == n) = some (n, data) := by
  intro s
  induction s with
  | nil => intro h; simp [List.find?] at h
  | cons e tl ih =>
    intro h
    cases he : (e.1 == n) with
    | true => simp [List.map, he, List.find?]
    | false =>
      have h' : (tl.find? (fun e => e.1 == n)).isSome := by
        simpa [List.find?, he] using h
      simpa [List.map, he, List.find?] using ih h' 

/-- `lookupNode` after `setNodeData` on an existing node. -/
theorem lookupNode_setNodeData_self (d : Dom) (n : Nat) (data : NodeData)
    (h : (lookupNode d n).isSome) :
    lookupNode (setNodeData d n data) n = some data := by
  unfold lookupNode at h
  unfold lookupNode setNodeData
  cases hf : d.store.find? (fun e => e.1 == n) with
  | none => rw [hf] at h; simp at h
  | some e =>
    rw [lookup_set_store n data d.store (by rw [hf]; rfl)]
    rfl

/-- One event-part update step: with exactly the listener `x` attached for
`ev` and recorded as last, an update whose substitution yields listener `l'`
leaves exactly `l'` attached and recorded. -/
theorem updateEventPart_step (d : Dom) (node : Nat) (ev : String) (x l' : Nat)
    (v : Value) (hl : listenersOf d node ev = [x])
    (hv : computeListener v = some l') :
    (updateEventPart d node ev (some x) v).2 = some l'
    ∧ listenersOf (updateEventPart d node ev (some x) v).1 node ev = [l'] := by
  unfold listenersOf at hl
  cases hd : lookupNode d node with
  | none => rw [hd] at hl; simp at hl
  | some data =>
    rw [hd] at hl
    cases data with
    | txt s => simp at hl
    | com s => simp at hl
    | frag cs => simp at hl
    | elem t a ls cs =>
      simp only at hl
      have hrm : removeEventListener d node ev x =
          setNodeData d node
            (.elem t a (ls.filter (fun p => !(p.1 == ev && p.2 == x))) cs) := by
        simp [removeEventListener, hd]
      have hclear := removeListener_clears ev x ls hl
      have hd1 : lookupNode (removeEventListener d node ev x) node =
          some (.elem t a (ls.filter (fun p => !(p.1 == ev && p.2 == x))) cs) := by
        rw [hrm]
        exact lookupNode_setNodeData_self d node _ (by rw [hd]; rfl)
      have hany := any_ev_false ev l' _ hclear
      have hadd : addEventListener (removeEventListener d node ev x) node ev l' =
          setNodeData (removeEventListener d node ev x) node
            (.elem t a
              (ls.filter (fun p => !(p.1 == ev && p.2 == x)) ++ [(ev, l')]) cs) := by
        unfold addEventListener
        rw [hd1]
        show (if ((ls.filter (fun p => !(p.1 == ev && p.2 == x))).any
                (fun p => p.1 == ev && p.2 == l')) = true
              then removeEventListener d node ev x
              else setNodeData (removeEventListener d node ev x) node
                (.elem t a
                  (ls.filter (fun p => !(p.1 == ev && p.2 == x)) ++ [(ev, l')])
                  cs)) =
            setNodeData (removeEventListener d node ev x) node
              (.elem t a
                (ls.filter (fun p => !(p.1 == ev && p.2 == x)) ++ [(ev, l')]) cs)
        rw [hany]
        simp
      have hupd : updateEventPart d node ev (some x) v =
          (addEventListener (removeEventListener d node ev x) node ev l',
            some l') := by
        simp [updateEventPart, hv]
      refine ⟨by rw [hupd], ?_⟩
      rw [hupd]
      simp only
      rw [hadd]
      unfold listenersOf
      rw [lookupNode_setNodeData_self _ node _ (by rw [hd1]; rfl)]
      simp only [List.filter_append, hclear, List.nil_append]
      simp [List.filter]

/-- Iterating updates with a substitution that yields listener `l'` keeps
exactly `l'` attached and recorded, for any number of iterations. -/
theorem iterate_event_keeps (node : Nat) (ev : String) (l' : Nat) (v : Value)
    (hv : computeListener v = some l') :
    ∀ (k : Nat) (d : Dom), listenersOf d node ev = [l'] →
    listenersOf (iterateEventUpdates d node ev (some l') v k).1 node ev = [l']
    ∧ (iterateEventUpdates d node ev (some l') v k).2 = some l' := by
  intro k
  induction k with
  | zero => intro d hd; exact ⟨hd, rfl⟩
  | succ k ih =>
    intro d hd
    have hstep := updateEventPart_step d node ev l' l' v hd hv
    simp only [iterateEventUpdates]
    rw [hstep.1]
    exact ih _ hstep.2

/-- C4: update of an event part.  With exactly the previously attached
listener `l0` registered for the event and recorded as the part's last
listener, an update render whose substitution yields a listener `l'` (the
value itself for a function, its `handleEvent` method for a handler object)
first detaches `l0`, then attaches and records `l'`: afterwards exactly
`l'` is attached — once — and this persists over any number of further
renders with the same substitution; when `l'` differs from `l0` the old
listener no longer fires (rebinding), and when it is the same handler it is
attached exactly once (no double binding). -/
theorem c4_event_rebinding (d : Dom) (node : Nat) (ev : String) (l0 l' : Nat)
    (v : Value) (hl : listenersOf d node ev = [l0])
    (hv : computeListener v = some l') :
    (updateEventPart d node ev (some l0) v).2 = some l'
    ∧ listenersOf (updateEventPart d node ev (some l0) v).1 node ev = [l']
    ∧ ∀ k,
        listenersOf (iterateEventUpdates d node ev (some l0) v (k + 1)).1
          node ev = [l']
        ∧ (iterateEventUpdates d node ev (some l0) v (k + 1)).2 = some l' := by
  have hstep := updateEventPart_step d node ev l0 l' v hl hv
  refine ⟨hstep.1, hstep.2, ?_⟩
  intro k
  simp only [iterateEventUpdates]
  rw [hstep.1]
  exact iterate_event_keeps node ev l' v hv k _ hstep.2

/-- Witness for `c4_event_rebinding`: a button with listener 1 attached for
`click`, rebound to the `handleEvent` method (function 9) of a handler
object. -/
theorem c4_event_rebinding_witness :
    (listenersOf ⟨[(3, .elem "button" [] [("click", 1)] [])], 4⟩ 3 "click" = [1]
      ∧ computeListener (Value.handleEv 8 9) = some 9)
    ∧ (updateEventPart ⟨[(3, .elem "button" [] [("click", 1)] [])], 4⟩ 3 "click"
        (some 1) (Value.handleEv 8 9)).2 = some 9
    ∧ listenersOf (updateEventPart ⟨[(3, .elem "button" [] [("click", 1)] [])], 4⟩
        3 "click" (some 1) (Value.handleEv 8 9)).1 3 "click" = [9]
    ∧ ∀ k,
        listenersOf (iterateEventUpdates
          ⟨[(3, .elem "button" [] [("click", 1)] [])], 4⟩ 3 "click" (some 1)
          (Value.handleEv 8 9) (k + 1)).1 3 "click" = [9]
        ∧ (iterateEventUpdates ⟨[(3, .elem "button" [] [("click", 1)] [])], 4⟩
            3 "click" (some 1) (Value.handleEv 8 9) (k + 1)).2 = some 9 :=
  ⟨⟨rfl, rfl⟩,
    c4_event_rebinding ⟨[(3, .elem "button" [] [("click", 1)] [])], 4⟩ 3 "click"
      1 9 (Value.handleEv 8 9) rfl rfl⟩

/-! ### Store well-formedness for the first-render theorem (C10)

`DomInv N d` seals the document at identity `N`: node identities and child
references are in range, keys are unique, no node is the child of two
parents (`flatOf` has no duplicates), nodes below `N` only reference nodes
below `N`, and nodes from `N` upward only reference nodes from `N`
upward. -/

/-- Keys of a store. -/
def keysOf (s : List (Nat × NodeData)) : List Nat :=
  s.map (fun e => e.1)

/-- Concatenation of all child lists of a store. -/
def flatOf (s : List (Nat × NodeData)) : List Nat :=
  s.flatMap (fun e => childrenOfData e.2)

/-- The document invariant sealed at `N`. -/
structure DomInv (N : Nat) (d : Dom) : Prop where
  keysNodup : (keysOf d.store).Nodup
  keysLt : ∀ k ∈ keysOf d.store, k < d.nextId
  flatNodup : (flatOf d.store).Nodup
  flatLt : ∀ c ∈ flatOf d.store, c < d.nextId
  oldSealed : ∀ e ∈ d.store, e.1 < N → ∀ c ∈ childrenOfData e.2, c < N
  newSealed : ∀ e ∈ d.store, N ≤ e.1 → ∀ c ∈ childrenOfData e.2, N ≤ c
  nle : N ≤ d.nextId

/-- Monotone growth that does not touch any node below `N`. -/
def PresBelow (N : Nat) (d d' : Dom) : Prop :=
  d.nextId ≤ d'.nextId ∧ ∀ id, id < N → lookupNode d' id = lookupNode d id

theorem PresBelow.refl (N : Nat) (d : Dom) : PresBelow N d d :=
  ⟨Nat.le_refl _, fun _ _ => rfl⟩

theorem PresBelow.trans {N : Nat} {d1 d2 d3 : Dom}
    (h1 : PresBelow N d1 d2) (h2 : PresBelow N d2 d3) : PresBelow N d1 d3 :=
  ⟨Nat.le_trans h1.1 h2.1, fun id hid => (h2.2 id hid).trans (h1.2 id hid)⟩

theorem PresBelow.mono {N M : Nat} {d d' : Dom} (h : PresBelow M d d')
    (hnm : N ≤ M) : PresBelow N d d' :=
  ⟨h.1, fun id hid => h.2 id (Nat.lt_of_lt_of_le hid hnm)⟩

/-- A successful lookup comes from a store entry with that key. -/
theorem mem_of_lookupNode {d : Dom} {id : Nat} {data : NodeData}
    (h : lookupNode d id = some data) : (id, data) ∈ d.store := by
  unfold lookupNode at h
  cases hf : d.store.find? (fun e => e.1 == id) with
  | none => rw [hf] at h; simp at h
  | some e =>
    rw [hf] at h
    have hpred := List.find?_some hf
    have hmem := List.mem_of_find?_eq_some hf
    have h1 : e.1 = id := by simpa using hpred
    have h2 : e.2 = data := by simpa using h
    have : e = (id, data) := by
      cases e; simp at h1 h2; simp [h1, h2]
    rw [this] at hmem
    exact hmem

/-- Children reachable through a lookup occur in the flat child list. -/
theorem children_mem_flat {d : Dom} {id : Nat} {data : NodeData}
    (h : lookupNode d id = some data) {c : Nat}
    (hc : c ∈ childrenOfData data) : c ∈ flatOf d.store := by
  have hmem := mem_of_lookupNode h
  unfold flatOf
  exact List.mem_flatMap.mpr ⟨(id, data), hmem, hc⟩

/-- Keys of a lookup are below `nextId` under the invariant. -/
theorem lookup_lt_nextId {N : Nat} {d : Dom} {id : Nat} {data : NodeData}
    (hinv : DomInv N d) (h : lookupNode d id = some data) : id < d.nextId := by
  have hmem := mem_of_lookupNode h
  exact hinv.keysLt id (List.mem_map.mpr ⟨(id, data), hmem, rfl⟩)

/-- `find?` on a key-preserving value map. -/
theorem find?_mapVal (g : NodeData → NodeData) (id : Nat) :
    ∀ s : List (Nat × NodeData),
    (s.map (fun e => (e.1, g e.2))).find? (fun e => e.1 == id) =
      (s.find? (fun e => e.1 == id)).map (fun e => (e.1, g e.2)) := by
  intro s
  induction s with
  | nil => rfl
  | cons e tl ih =>
    cases he : (e.1 == id) with
    | true => simp [List.find?, he]
    | false => simpa [List.find?, he] using ih

/-- Lookup through `detachGlobal`. -/
theorem lookupNode_detachGlobal (d : Dom) (n id : Nat) :
    lookupNode (detachGlobal d n) id =
      (lookupNode d id).map (removeChildEverywhere n) := by
  unfold lookupNode detachGlobal
  simp only [find?_mapVal]
  cases d.store.find? (fun e => e.1 == id) <;> rfl

/-- Lookup of a different key through `setNodeData`. -/
theorem lookupNode_setNodeData_ne (d : Dom) (n id : Nat) (data : NodeData)
    (hne : id ≠ n) :
    lookupNode (setNodeData d n data) id = lookupNode d id := by
  have hni : (n == id) = false := by
    simp only [beq_eq_false_iff_ne]
    exact fun hc => hne hc.symm
  unfold lookupNode setNodeData
  simp only
  congr 1
  induction d.store with
  | nil => rfl
  | cons e tl ih =>
    simp only [List.map_cons]
    by_cases he : (e.1 == n) = true
    · have h1 : e.1 = n := by simpa using he
      have hei : (e.1 == id) = false := by rw [h1]; exact hni
      rw [if_pos he]
      simp only [List.find?_cons, hni, hei]
      exact ih
    · rw [if_neg he]
      cases hei : (e.1 == id) with
      | true => simp only [List.find?_cons, hei]
      | false =>
        simp only [List.find?_cons, hei]
        exact ih

/-- `removeChildEverywhere` is the identity when the node is not a child. -/
theorem filter_bne_eq_self {n : Nat} {cs : List Nat} (h : n ∉ cs) :
    cs.filter (fun c => c != n) = cs := by
  apply List.filter_eq_self.mpr
  intro c hc
  simp only [bne_iff_ne, ne_eq]
  exact fun hcn => h (hcn ▸ hc)

/-- The removal map is the identity when the node is not a child. -/
theorem removeChildEverywhere_eq_self {n : Nat} {data : NodeData}
    (h : n ∉ childrenOfData data) : removeChildEverywhere n data = data := by
  cases data with
  | elem t a l cs =>
    have h' : n ∉ cs := h
    show NodeData.elem t a l (cs.filter (fun c => c != n)) = NodeData.elem t a l cs
    rw [filter_bne_eq_self h']
  | frag cs =>
    have h' : n ∉ cs := h
    show NodeData.frag (cs.filter (fun c => c != n)) = NodeData.frag cs
    rw [filter_bne_eq_self h']
  | txt s => rfl
  | com s => rfl

/-- Children after `removeChildEverywhere` are the filtered children. -/
theorem children_removeChildEverywhere (n : Nat) (data : NodeData) :
    childrenOfData (removeChildEverywhere n data) =
      (childrenOfData data).filter (fun c => c != n) := by
  cases data <;> rfl

/-- Keys survive `detachGlobal`. -/
theorem keysOf_detachGlobal (d : Dom) (n : Nat) :
    keysOf (detachGlobal d n).store = keysOf d.store := by
  unfold keysOf detachGlobal
  simp [List.map_map, Function.comp]

/-- Keys survive `setNodeData`. -/
theorem keysOf_setNodeData (d : Dom) (n : Nat) (data : NodeData) :
    keysOf (setNodeData d n data).store = keysOf d.store := by
  unfold keysOf setNodeData
  simp only [List.map_map]
  apply List.map_congr_left
  intro e _
  simp only [Function.comp]
  cases he : (e.1 == n) with
  | true =>
    have : e.1 = n := by simpa using he
    simp [he, this]
  | false => simp [he]

/-- The flat child list after `detachGlobal` is the filtered flat list. -/
theorem flatOf_detachGlobal (d : Dom) (n : Nat) :
    flatOf (detachGlobal d n).store =
      (flatOf d.store).filter (fun c => c != n) := by
  unfold flatOf detachGlobal
  simp only
  induction d.store with
  | nil => rfl
  | cons e tl ih =>
    simp only [List.map, List.flatMap_cons, List.filter_append, ih,
      children_removeChildEverywhere]

/-- `find?` form of a successful lookup. -/
theorem find?_of_lookupNode {d : Dom} {p : Nat} {data0 : NodeData}
    (h : lookupNode d p = some data0) :
    d.store.find? (fun e => e.1 == p) = some (p, data0) := by
  unfold lookupNode at h
  cases hf : d.store.find? (fun e => e.1 == p) with
  | none => rw [hf] at h; simp at h
  | some e =>
    rw [hf] at h
    have h1 : e.1 = p := by simpa using List.find?_some hf
    have h2 : e.2 = data0 := by simpa using h
    exact congrArg some (Prod.ext h1 h2)

/-- With unique keys, a store entry is what `find?` returns for its key
(list form). -/
theorem find?_of_mem_list (k : Nat) (v : NodeData) :
    ∀ s : List (Nat × NodeData), (s.map (fun e => e.1)).Nodup →
    (k, v) ∈ s → s.find? (fun e => e.1 == k) = some (k, v) := by
  intro s
  induction s with
  | nil => intro _ hmem; simp at hmem
  | cons e tl ih =>
    intro hk hmem
    simp only [List.map_cons, List.nodup_cons] at hk
    rw [List.find?_cons]
    rcases List.mem_cons.mp hmem with he | htl
    · rw [← he]
      simp
    · have hkne : (e.1 == k) = false := by
        simp only [beq_eq_false_iff_ne]
        intro hc
        exact hk.1 (hc ▸ List.mem_map.mpr ⟨(k, v), htl, rfl⟩)
      rw [hkne]
      exact ih hk.2 htl

/-- With unique keys, a store entry is what lookup returns for its key. -/
theorem lookupNode_of_mem {d : Dom} (hk : (keysOf d.store).Nodup)
    {k : Nat} {v : NodeData} (hmem : (k, v) ∈ d.store) :
    lookupNode d k = some v := by
  unfold lookupNode
  rw [find?_of_mem_list k v d.store hk hmem]
  rfl

/-- The identity map on entries whose key is absent. -/
theorem map_set_id (p : Nat) (data' : NodeData) (s : List (Nat × NodeData))
    (h : p ∉ keysOf s) :
    s.map (fun e => if e.1 == p then (p, data') else e) = s := by
  have : ∀ e ∈ s, (if e.1 == p then (p, data') else e) = e := by
    intro e he
    have : e.1 ≠ p := by
      intro hc
      exact h (hc ▸ List.mem_map.mpr ⟨e, he, rfl⟩)
    rw [if_neg (by simpa using this)]
  calc s.map (fun e => if e.1 == p then (p, data') else e) = s.map id :=
        List.map_congr_left this
    _ = s := List.map_id s

/-- Decomposition of the flat child list around one entry, list form. -/
theorem flat_set_decomp_list (p : Nat) (data0 : NodeData) :
    ∀ s : List (Nat × NodeData), (s.map (fun e => e.1)).Nodup →
    s.find? (fun e => e.1 == p) = some (p, data0) →
    ∃ L R, flatOf s = L ++ childrenOfData data0 ++ R ∧
      ∀ data', flatOf (s.map (fun e => if e.1 == p then (p, data') else e)) =
        L ++ childrenOfData data' ++ R := by
  intro s
  induction s with
  | nil => intro _ hfind; simp [List.find?] at hfind
  | cons e tl ih =>
    intro hk hfind
    simp only [List.map_cons, List.nodup_cons] at hk
    rw [List.find?_cons] at hfind
    by_cases he : (e.1 == p) = true
    · have hep : e.1 = p := by simpa using he
      rw [he] at hfind
      simp only at hfind
      have he2 : e.2 = data0 := by
        have := congrArg (fun o => Option.map Prod.snd o) hfind
        simpa using this
      refine ⟨[], flatOf tl, ?_, ?_⟩
      · simp [flatOf, he2]
      · intro data'
        rw [List.map_cons, if_pos he]
        have hid : tl.map (fun e => if e.1 == p then (p, data') else e) = tl := by
          apply map_set_id
          intro hc
          exact hk.1 (hep ▸ hc)
        rw [hid]
        simp [flatOf]
    · have he' : (e.1 == p) = false := by simpa using he
      rw [he'] at hfind
      simp only at hfind
      obtain ⟨L', R', h1, h2⟩ := ih hk.2 hfind
      refine ⟨childrenOfData e.2 ++ L', R', ?_, ?_⟩
      · simp only [flatOf, List.flatMap_cons]
        rw [show flatOf tl = tl.flatMap (fun e => childrenOfData e.2) from rfl] at h1
        rw [h1]
        simp [List.append_assoc]
      · intro data'
        rw [List.map_cons, if_neg he]
        simp only [flatOf, List.flatMap_cons]
        have h3 := h2 data'
        rw [show flatOf (tl.map (fun e => if e.1 == p then (p, data') else e)) =
          (tl.map (fun e => if e.1 == p then (p, data') else e)).flatMap
            (fun e => childrenOfData e.2) from rfl] at h3
        rw [h3]
        simp [List.append_assoc]

/-- Decomposition of the flat child list around one entry: overwriting that
entry rewrites exactly its child block. -/
theorem flat_set_decomp {d : Dom} {p : Nat} {data0 : NodeData}
    (hk : (keysOf d.store).Nodup) (h : lookupNode d p = some data0) :
    ∃ L R, flatOf d.store = L ++ childrenOfData data0 ++ R ∧
      ∀ data', flatOf (setNodeData d p data').store =
        L ++ childrenOfData data' ++ R :=
  flat_set_decomp_list p data0 d.store hk (find?_of_lookupNode h)

/-- Child lists reachable by lookup have no duplicates under the invariant. -/
theorem childrenNodup {N : Nat} {d : Dom} (hinv : DomInv N d) {id : Nat}
    {data : NodeData} (h : lookupNode d id = some data) :
    (childrenOfData data).Nodup := by
  obtain ⟨L, R, h1, _⟩ := flat_set_decomp hinv.keysNodup h
  have hnd := hinv.flatNodup
  rw [h1] at hnd
  exact (hnd.of_append_left).of_append_right

/-- Lookup ignores a prepended entry with a different key. -/
theorem lookup_cons_ne (k : Nat) (data : NodeData) (s : List (Nat × NodeData))
    (m m' id : Nat) (h : (k == id) = false) :
    lookupNode ⟨(k, data) :: s, m⟩ id = lookupNode ⟨s, m'⟩ id := by
  unfold lookupNode
  have h' : (((k, data) : Nat × NodeData).1 == id) = false := h
  simp [List.find?_cons, h']

/-- Entries of a `setNodeData` store come from the original store, except for
the rewritten entry. -/
theorem mem_setNodeData_store {d : Dom} {n : Nat} {data : NodeData}
    {e' : Nat × NodeData} (h : e' ∈ (setNodeData d n data).store) :
    e' ∈ d.store ∨ e' = (n, data) := by
  unfold setNodeData at h
  simp only [List.mem_map] at h
  obtain ⟨e, he, heq⟩ := h
  by_cases hc : (e.1 == n) = true
  · right
    rw [if_pos hc] at heq
    exact heq.symm
  · left
    rw [if_neg hc] at heq
    exact heq ▸ he

/-- Any sealed invariant can be re-sealed at the current `nextId`. -/
theorem DomInv.promote {M : Nat} {d : Dom} (h : DomInv M d) :
    DomInv d.nextId d := by
  refine ⟨h.keysNodup, h.keysLt, h.flatNodup, h.flatLt, ?_, ?_, Nat.le_refl _⟩
  · intro e he _ c hc
    exact h.flatLt c (List.mem_flatMap.mpr ⟨e, he, hc⟩)
  · intro e he hge
    exact absurd (h.keysLt e.1 (List.mem_map.mpr ⟨e, he, rfl⟩))
      (Nat.not_lt.mpr hge)

/-- Transfer: an evolution sealed at the intermediate `nextId` that preserves
everything below it also preserves the outer seal. -/
theorem DomInv.unpromote {M : Nat} {d1 d2 : Dom} (h1 : DomInv M d1)
    (h2 : DomInv d1.nextId d2) (hp : PresBelow d1.nextId d1 d2) :
    DomInv M d2 := by
  have hmem1 : ∀ e : Nat × NodeData, e ∈ d2.store → e.1 < d1.nextId →
      e ∈ d1.store := by
    intro e he hlt
    have hl2 : lookupNode d2 e.1 = some e.2 :=
      lookupNode_of_mem h2.keysNodup he
    have hl1 : lookupNode d1 e.1 = some e.2 := by
      rw [← hp.2 e.1 hlt]; exact hl2
    exact mem_of_lookupNode hl1
  refine ⟨h2.keysNodup, h2.keysLt, h2.flatNodup, h2.flatLt, ?_, ?_,
    Nat.le_trans h1.nle hp.1⟩
  · intro e he hlt c hc
    have hlt1 : e.1 < d1.nextId := Nat.lt_of_lt_of_le hlt h1.nle
    exact h1.oldSealed e (hmem1 e he hlt1) hlt c hc
  · intro e he hge c hc
    by_cases hcase : e.1 < d1.nextId
    · exact h1.newSealed e (hmem1 e he hcase) hge c hc
    · exact Nat.le_trans h1.nle
        (h2.newSealed e he (Nat.le_of_not_lt hcase) c hc)

/-- Prepending one fresh node preserves the invariant when its children are
sealed, bounded, previously unreferenced and duplicate-free. -/
theorem alloc_inv {M : Nat} {d : Dom} (data : NodeData) (hinv : DomInv M d)
    (hnd : (childrenOfData data).Nodup)
    (hlb : ∀ c ∈ childrenOfData data, M ≤ c)
    (hub : ∀ c ∈ childrenOfData data, c < d.nextId)
    (hun : ∀ c ∈ childrenOfData data, c ∉ flatOf d.store) :
    DomInv M ⟨(d.nextId, data) :: d.store, d.nextId + 1⟩ ∧
      (∀ id, id < d.nextId →
        lookupNode ⟨(d.nextId, data) :: d.store, d.nextId + 1⟩ id =
          lookupNode d id) := by
  constructor
  · refine ⟨?_, ?_, ?_, ?_, ?_, ?_, Nat.le_trans hinv.nle (Nat.le_succ _)⟩
    · show (d.nextId :: keysOf d.store).Nodup
      refine List.nodup_cons.mpr ⟨?_, hinv.keysNodup⟩
      intro hc
      exact absurd (hinv.keysLt _ hc) (Nat.lt_irrefl _)
    · intro k hk
      have hk' : k ∈ d.nextId :: keysOf d.store := hk
      rcases List.mem_cons.mp hk' with h | h
      · rw [h]; exact Nat.lt_succ_self _
      · exact Nat.lt_succ_of_lt (hinv.keysLt k h)
    · show (childrenOfData data ++ flatOf d.store).Nodup
      exact List.Nodup.append hnd hinv.flatNodup (fun a ha hb => hun a ha hb)
    · intro c hc
      have hc' : c ∈ childrenOfData data ++ flatOf d.store := hc
      rcases List.mem_append.mp hc' with h | h
      · exact Nat.lt_succ_of_lt (hub c h)
      · exact Nat.lt_succ_of_lt (hinv.flatLt c h)
    · intro e he hlt c hc
      rcases List.mem_cons.mp he with h | h
      · exfalso
        rw [h] at hlt
        exact absurd (Nat.lt_of_le_of_lt hinv.nle hlt) (Nat.lt_irrefl _)
      · exact hinv.oldSealed e h hlt c hc
    · intro e he hge c hc
      rcases List.mem_cons.mp he with h | h
      · rw [h] at hc
        exact hlb c hc
      · exact hinv.newSealed e h hge c hc
  · intro id hid
    have hne : (d.nextId == id) = false := by
      simp only [beq_eq_false_iff_ne]
      exact fun hc => absurd (hc ▸ hid) (Nat.lt_irrefl _)
    exact lookup_cons_ne d.nextId data d.store (d.nextId + 1) d.nextId id hne

/-- Rewriting one entry at or above the seal without changing its children
preserves the invariant and all lookups below the seal. -/
theorem setNodeData_inv {M : Nat} {d : Dom} {n : Nat} {data0 data' : NodeData}
    (hinv : DomInv M d) (hl : lookupNode d n = some data0) (hn : M ≤ n)
    (hch : childrenOfData data' = childrenOfData data0) :
    DomInv M (setNodeData d n data') ∧ PresBelow M d (setNodeData d n data') := by
  obtain ⟨L, R, hflat0, hflat'⟩ := flat_set_decomp hinv.keysNodup hl
  have hkeys := keysOf_setNodeData d n data'
  have hflat : flatOf (setNodeData d n data').store = flatOf d.store := by
    rw [hflat' data', hch, ← hflat0]
  constructor
  · refine ⟨?_, ?_, ?_, ?_, ?_, ?_, hinv.nle⟩
    · rw [hkeys]; exact hinv.keysNodup
    · intro k hk
      rw [hkeys] at hk
      exact hinv.keysLt k hk
    · rw [hflat]; exact hinv.flatNodup
    · intro c hc
      rw [hflat] at hc
      exact hinv.flatLt c hc
    · intro e he hlt c hc
      rcases mem_setNodeData_store he with h | h1
      · exact hinv.oldSealed e h hlt c hc
      · exfalso
        rw [h1] at hlt
        exact absurd (Nat.lt_of_le_of_lt hn hlt) (Nat.lt_irrefl _)
    · intro e he hge c hc
      rcases mem_setNodeData_store he with h | h1
      · exact hinv.newSealed e h hge c hc
      · rw [h1] at hc
        have hc0 : c ∈ childrenOfData data0 := hch ▸ hc
        exact hinv.newSealed (n, data0) (mem_of_lookupNode hl) hn c hc0
  · refine ⟨Nat.le_refl _, ?_⟩
    intro id hid
    exact lookupNode_setNodeData_ne d n id data'
      (fun hc => absurd hid (Nat.not_lt.mpr (hc ▸ hn)))

/-- `setAttribute` on a node at or above the seal preserves the invariant
and all lookups below it. -/
theorem setAttribute_inv {M : Nat} {d : Dom} {n : Nat} (name v : String)
    (hinv : DomInv M d) (hn : M ≤ n) :
    DomInv M (setAttribute d n name v) ∧
      PresBelow M d (setAttribute d n name v) := by
  cases hl : lookupNode d n with
  | none => simp only [setAttribute, hl]; exact ⟨hinv, PresBelow.refl M d⟩
  | some data =>
    cases data with
    | elem t a ls cs =>
      simp only [setAttribute, hl]
      exact setNodeData_inv hinv hl hn rfl
    | txt s => simp only [setAttribute, hl]; exact ⟨hinv, PresBelow.refl M d⟩
    | com s => simp only [setAttribute, hl]; exact ⟨hinv, PresBelow.refl M d⟩
    | frag cs => simp only [setAttribute, hl]; exact ⟨hinv, PresBelow.refl M d⟩

/-- `addEventListener` on a node at or above the seal preserves the invariant
and all lookups below it. -/
theorem addEventListener_inv {M : Nat} {d : Dom} {n : Nat} (ev : String)
    (x : Nat) (hinv : DomInv M d) (hn : M ≤ n) :
    DomInv M (addEventListener d n ev x) ∧
      PresBelow M d (addEventListener d n ev x) := by
  cases hl : lookupNode d n with
  | none => simp only [addEventListener, hl]; exact ⟨hinv, PresBelow.refl M d⟩
  | some data =>
    cases data with
    | elem t a ls cs =>
      simp only [addEventListener, hl]
      by_cases hany : (ls.any fun p => p.1 == ev && p.2 == x) = true
      · rw [if_pos hany]
        exact ⟨hinv, PresBelow.refl M d⟩
      · rw [if_neg hany]
        exact setNodeData_inv hinv hl hn rfl
    | txt s => simp only [addEventListener, hl]; exact ⟨hinv, PresBelow.refl M d⟩
    | com s => simp only [addEventListener, hl]; exact ⟨hinv, PresBelow.refl M d⟩
    | frag cs => simp only [addEventListener, hl]; exact ⟨hinv, PresBelow.refl M d⟩

/-- Entries of a `detachGlobal` store are the child-filtered originals. -/
theorem mem_detachGlobal_store {d : Dom} {n : Nat} {e' : Nat × NodeData}
    (h : e' ∈ (detachGlobal d n).store) :
    ∃ e ∈ d.store, e' = (e.1, removeChildEverywhere n e.2) := by
  unfold detachGlobal at h
  simp only [List.mem_map] at h
  obtain ⟨e, he, heq⟩ := h
  exact ⟨e, he, heq.symm⟩

/-- `detachGlobal` of a node at or above the seal preserves the invariant
and all lookups below the seal. -/
theorem detachGlobal_inv {M : Nat} {d : Dom} {n : Nat}
    (hinv : DomInv M d) (hn : M ≤ n) :
    DomInv M (detachGlobal d n) ∧ PresBelow M d (detachGlobal d n) := by
  constructor
  · refine ⟨?_, ?_, ?_, ?_, ?_, ?_, hinv.nle⟩
    · rw [keysOf_detachGlobal]; exact hinv.keysNodup
    · intro k hk
      rw [keysOf_detachGlobal] at hk
      exact hinv.keysLt k hk
    · rw [flatOf_detachGlobal]
      exact hinv.flatNodup.filter _
    · intro c hc
      rw [flatOf_detachGlobal] at hc
      exact hinv.flatLt c (List.mem_of_mem_filter hc)
    · intro e he hlt c hc
      obtain ⟨e0, he0, heq⟩ := mem_detachGlobal_store he
      rw [heq] at hlt hc
      have hlt2 : e0.1 < M := hlt
      have hc2 : c ∈ childrenOfData (removeChildEverywhere n e0.2) := hc
      rw [children_removeChildEverywhere] at hc2
      exact hinv.oldSealed e0 he0 hlt2 c (List.mem_of_mem_filter hc2)
    · intro e he hge c hc
      obtain ⟨e0, he0, heq⟩ := mem_detachGlobal_store he
      rw [heq] at hge hc
      have hge2 : M ≤ e0.1 := hge
      have hc2 : c ∈ childrenOfData (removeChildEverywhere n e0.2) := hc
      rw [children_removeChildEverywhere] at hc2
      exact hinv.newSealed e0 he0 hge2 c (List.mem_of_mem_filter hc2)
  · refine ⟨Nat.le_refl _, ?_⟩
    intro id hid
    rw [lookupNode_detachGlobal]
    cases hl : lookupNode d id with
    | none => rfl
    | some data =>
      have hmem := mem_of_lookupNode hl
      have hch : ∀ c ∈ childrenOfData data, c < M :=
        hinv.oldSealed (id, data) hmem hid
      have hnc : n ∉ childrenOfData data := fun hc =>
        absurd (hch n hc) (Nat.not_lt.mpr hn)
      simp [removeChildEverywhere_eq_self hnc]

/-- `detachAll` preserves the invariant, all lookups below the seal and
`nextId`, only shrinks the flat child list, and leaves every detached node
unreferenced. -/
theorem detachAll_inv {M : Nat} :
    ∀ (ns : List Nat) (d : Dom), DomInv M d → (∀ n ∈ ns, M ≤ n) →
    DomInv M (detachAll d ns) ∧ PresBelow M d (detachAll d ns) ∧
      (detachAll d ns).nextId = d.nextId ∧
      (∀ c, c ∈ flatOf (detachAll d ns).store → c ∈ flatOf d.store) ∧
      (∀ n ∈ ns, n ∉ flatOf (detachAll d ns).store) := by
  intro ns
  induction ns with
  | nil =>
    intro d hinv _
    exact ⟨hinv, PresBelow.refl M d, rfl, fun c hc => hc, by simp⟩
  | cons n rest ih =>
    intro d hinv hns
    have hn : M ≤ n := hns n (List.mem_cons_self n rest)
    obtain ⟨h1, h2⟩ := detachGlobal_inv hinv hn
    have hrest : ∀ m ∈ rest, M ≤ m := fun m hm =>
      hns m (List.mem_cons_of_mem n hm)
    obtain ⟨ih1, ih2, ih3, ih4, ih5⟩ := ih (detachGlobal d n) h1 hrest
    have hstep : detachAll d (n :: rest) = detachAll (detachGlobal d n) rest :=
      rfl
    rw [hstep]
    refine ⟨ih1, PresBelow.trans h2 ih2, ih3.trans rfl, ?_, ?_⟩
    · intro c hc
      have h4 := ih4 c hc
      rw [flatOf_detachGlobal] at h4
      exact List.mem_of_mem_filter h4
    · intro m hm
      rcases List.mem_cons.mp hm with hme | hmr
      · intro hc
        have h4 := ih4 m hc
        rw [flatOf_detachGlobal] at h4
        have h4' := List.of_mem_filter h4
        rw [hme] at h4'
        simp at h4'
      · exact ih5 m hmr

/-- A `parentOf` result is a store entry holding the child. -/
theorem parentOf_spec {d : Dom} {node p : Nat} (h : parentOf d node = some p) :
    ∃ data, (p, data) ∈ d.store ∧ node ∈ childrenOfData data := by
  unfold parentOf at h
  cases hf : d.store.find? (fun e => (childrenOfData e.2).contains node) with
  | none => rw [hf] at h; simp at h
  | some e =>
    rw [hf] at h
    have hp : e.1 = p := by simpa using h
    have hpred := List.find?_some hf
    have hmem := List.mem_of_find?_eq_some hf
    have hin : node ∈ childrenOfData e.2 := by simpa using hpred
    exact ⟨e.2, by rw [← hp]; exact hmem, hin⟩

/-- Splice expansion is the identity away from the hole. -/
theorem flatMap_expand_id {node : Nat} {ns : List Nat} :
    ∀ cs : List Nat, node ∉ cs →
    cs.flatMap (fun c => if c == node then ns else [c]) = cs := by
  intro cs
  induction cs with
  | nil => intro _; rfl
  | cons c rest ih =>
    intro h
    have hc : (c == node) = false := by
      simp only [beq_eq_false_iff_ne]
      exact fun he => h (he ▸ List.mem_cons_self c rest)
    have hne : ¬ ((c == node) = true) := by simp [hc]
    rw [List.flatMap_cons, if_neg hne,
      ih (fun hm => h (List.mem_cons_of_mem c hm))]
    rfl

/-- Splice expansion at a duplicate-free occurrence. -/
theorem flatMap_expand {node : Nat} {ns : List Nat} {pre post : List Nat}
    (hpre : node ∉ pre) (hpost : node ∉ post) :
    (pre ++ node :: post).flatMap (fun c => if c == node then ns else [c]) =
      pre ++ ns ++ post := by
  rw [List.flatMap_append, flatMap_expand_id pre hpre, List.flatMap_cons,
    if_pos (by simp : ((node == node) = true)), flatMap_expand_id post hpost,
    List.append_assoc]

/-- A duplicate-free list splits around any member, with the member absent
from both sides. -/
theorem nodup_split {node : Nat} {cs : List Nat} (hnd : cs.Nodup)
    (hmem : node ∈ cs) :
    ∃ pre post, cs = pre ++ node :: post ∧ node ∉ pre ∧ node ∉ post := by
  obtain ⟨pre, post, rfl⟩ := List.append_of_mem hmem
  obtain ⟨h1, h2, h3⟩ := List.nodup_append.mp hnd
  refine ⟨pre, post, rfl, ?_, (List.nodup_cons.mp h2).1⟩
  intro hc
  exact h3 hc (List.mem_cons_self node post)

/-- Replacing one duplicate-free occurrence by fresh distinct nodes keeps the
surrounding concatenation duplicate-free. -/
theorem nodup_splice {L R pre post ns : List Nat} {node : Nat}
    (h : (L ++ (pre ++ node :: post) ++ R).Nodup) (hns : ns.Nodup)
    (hd : ∀ n ∈ ns, n ∉ L ++ (pre ++ node :: post) ++ R) :
    (L ++ (pre ++ ns ++ post) ++ R).Nodup := by
  rw [List.nodup_iff_count_le_one] at h hns ⊢
  intro a
  have horig := h a
  simp only [List.count_append] at horig ⊢
  by_cases hmem : a ∈ ns
  · have hL : a ∉ L := fun hc => hd a hmem
      (List.mem_append.mpr (Or.inl (List.mem_append.mpr (Or.inl hc))))
    have hpre : a ∉ pre := fun hc => hd a hmem
      (List.mem_append.mpr (Or.inl (List.mem_append.mpr (Or.inr
        (List.mem_append.mpr (Or.inl hc))))))
    have hpost : a ∉ post := fun hc => hd a hmem
      (List.mem_append.mpr (Or.inl (List.mem_append.mpr (Or.inr
        (List.mem_append.mpr (Or.inr (List.mem_cons_of_mem node hc)))))))
    have hR : a ∉ R := fun hc => hd a hmem (List.mem_append.mpr (Or.inr hc))
    rw [List.count_eq_zero_of_not_mem hL, List.count_eq_zero_of_not_mem hpre,
      List.count_eq_zero_of_not_mem hpost, List.count_eq_zero_of_not_mem hR]
    have hcns := hns a
    omega
  · rw [List.count_eq_zero_of_not_mem hmem]
    have hsub : List.count a post ≤ List.count a (node :: post) :=
      (List.sublist_cons_self node post).count_le a
    omega

/-- Rewriting one sealed-above entry's child list by a splice of fresh,
sealed, bounded, distinct nodes preserves the invariant and all lookups
below the seal. -/
theorem setChildren_entry_inv {M : Nat} {d1 : Dom} {p : Nat}
    {datap data' : NodeData} (h1 : DomInv M d1)
    (hlp : lookupNode d1 p = some datap) (hpM : M ≤ p)
    {pre post ns : List Nat} {node : Nat}
    (hsplit : childrenOfData datap = pre ++ node :: post)
    (hch' : childrenOfData data' = pre ++ ns ++ post)
    (hns : ns.Nodup) (hlb : ∀ n ∈ ns, M ≤ n) (hub : ∀ n ∈ ns, n < d1.nextId)
    (hfresh : ∀ n ∈ ns, n ∉ flatOf d1.store) :
    DomInv M (setNodeData d1 p data') ∧
      PresBelow M d1 (setNodeData d1 p data') := by
  obtain ⟨L, R, hflat0, hflat'⟩ := flat_set_decomp h1.keysNodup hlp
  have hflatd1 : flatOf d1.store = L ++ (pre ++ node :: post) ++ R := by
    rw [hflat0, hsplit]
  have hflat2 : flatOf (setNodeData d1 p data').store =
      L ++ (pre ++ ns ++ post) ++ R := by
    rw [hflat' data', hch']
  have hdns : ∀ n ∈ ns, n ∉ L ++ (pre ++ node :: post) ++ R := by
    intro n hn
    rw [← hflatd1]
    exact hfresh n hn
  have hmemflat : ∀ c, c ∈ L ∨ c ∈ pre ∨ c ∈ post ∨ c ∈ R →
      c ∈ flatOf d1.store := by
    intro c hc
    rw [hflatd1]
    rcases hc with h | h | h | h
    · exact List.mem_append.mpr (Or.inl (List.mem_append.mpr (Or.inl h)))
    · exact List.mem_append.mpr (Or.inl (List.mem_append.mpr (Or.inr
        (List.mem_append.mpr (Or.inl h)))))
    · exact List.mem_append.mpr (Or.inl (List.mem_append.mpr (Or.inr
        (List.mem_append.mpr (Or.inr (List.mem_cons_of_mem node h))))))
    · exact List.mem_append.mpr (Or.inr h)
  constructor
  · refine ⟨?_, ?_, ?_, ?_, ?_, ?_, h1.nle⟩
    · rw [keysOf_setNodeData]; exact h1.keysNodup
    · intro k hk
      rw [keysOf_setNodeData] at hk
      exact h1.keysLt k hk
    · rw [hflat2]
      refine nodup_splice ?_ hns hdns
      rw [← hflatd1]
      exact h1.flatNodup
    · intro c hc
      rw [hflat2] at hc
      show c < d1.nextId
      rcases List.mem_append.mp hc with hc1 | hcR
      · rcases List.mem_append.mp hc1 with hcL | hcm
        · exact h1.flatLt c (hmemflat c (Or.inl hcL))
        · rcases List.mem_append.mp hcm with hcm1 | hcpost
          · rcases List.mem_append.mp hcm1 with hcpre | hcns
            · exact h1.flatLt c (hmemflat c (Or.inr (Or.inl hcpre)))
            · exact hub c hcns
          · exact h1.flatLt c (hmemflat c (Or.inr (Or.inr (Or.inl hcpost))))
      · exact h1.flatLt c (hmemflat c (Or.inr (Or.inr (Or.inr hcR))))
    · intro e he hlt c hc
      rcases mem_setNodeData_store he with h | hnew
      · exact h1.oldSealed e h hlt c hc
      · exfalso
        rw [hnew] at hlt
        have hlt2 : p < M := hlt
        exact absurd (Nat.lt_of_le_of_lt hpM hlt2) (Nat.lt_irrefl _)
    · intro e he hge c hc
      rcases mem_setNodeData_store he with h | hnew
      · exact h1.newSealed e h hge c hc
      · rw [hnew] at hc
        have hc' : c ∈ childrenOfData data' := hc
        rw [hch'] at hc'
        have hself := h1.newSealed (p, datap) (mem_of_lookupNode hlp) hpM
        rcases List.mem_append.mp hc' with hcm1 | hcpost
        · rcases List.mem_append.mp hcm1 with hcpre | hcns
          · refine hself c ?_
            show c ∈ childrenOfData datap
            rw [hsplit]
            exact List.mem_append.mpr (Or.inl hcpre)
          · exact hlb c hcns
        · refine hself c ?_
          show c ∈ childrenOfData datap
          rw [hsplit]
          exact List.mem_append.mpr (Or.inr (List.mem_cons_of_mem node hcpost))
  · refine ⟨Nat.le_refl _, ?_⟩
    intro id hid
    exact lookupNode_setNodeData_ne d1 p id data'
      (fun hc => absurd hid (Nat.not_lt.mpr (hc ▸ hpM)))

/-- `replaceNodeWith` preserves the invariant, all lookups below the seal and
`nextId` when the replaced node sits at or above the seal and the spliced
nodes are sealed, bounded and distinct. -/
theorem replaceNodeWith_inv {M : Nat} {d : Dom} {node : Nat} {ns : List Nat}
    (hinv : DomInv M d) (hnode : M ≤ node) (hns : ns.Nodup)
    (hlb : ∀ n ∈ ns, M ≤ n) (hub : ∀ n ∈ ns, n < d.nextId) :
    DomInv M (replaceNodeWith d node ns) ∧
      PresBelow M d (replaceNodeWith d node ns) ∧
      (replaceNodeWith d node ns).nextId = d.nextId := by
  obtain ⟨h1, h2, h3, h4, h5⟩ := detachAll_inv ns d hinv hlb
  cases hpar : parentOf (detachAll d ns) node with
  | none =>
    have hrepl : replaceNodeWith d node ns = detachAll d ns := by
      simp only [replaceNodeWith, hpar]
    rw [hrepl]
    exact ⟨h1, h2, h3⟩
  | some p =>
    have hrepl : replaceNodeWith d node ns =
        setChildrenOf (detachAll d ns) p
          ((childNodes (detachAll d ns) p).flatMap
            (fun c => if c == node then ns else [c])) := by
      simp only [replaceNodeWith, hpar]
    obtain ⟨datap, hpmem, hpin⟩ := parentOf_spec hpar
    have hlp : lookupNode (detachAll d ns) p = some datap :=
      lookupNode_of_mem h1.keysNodup hpmem
    have hpM : M ≤ p := by
      by_contra hlt
      have := h1.oldSealed (p, datap) hpmem (Nat.lt_of_not_le hlt) node hpin
      exact absurd hnode (Nat.not_le.mpr this)
    have hcsnd : (childrenOfData datap).Nodup := childrenNodup h1 hlp
    obtain ⟨pre, post, hsplit, hnpre, hnpost⟩ := nodup_split hcsnd hpin
    have hchn : childNodes (detachAll d ns) p = childrenOfData datap := by
      simp only [childNodes, hlp]
    have hexp : (childNodes (detachAll d ns) p).flatMap
        (fun c => if c == node then ns else [c]) = pre ++ ns ++ post := by
      rw [hchn, hsplit]
      exact flatMap_expand hnpre hnpost
    rw [hrepl, hexp]
    have hub1 : ∀ n ∈ ns, n < (detachAll d ns).nextId := by
      intro n hn
      rw [h3]
      exact hub n hn
    cases datap with
    | elem t a ls cs =>
      have hset : setChildrenOf (detachAll d ns) p (pre ++ ns ++ post) =
          setNodeData (detachAll d ns) p (.elem t a ls (pre ++ ns ++ post)) := by
        simp only [setChildrenOf, hlp]
      rw [hset]
      obtain ⟨hi, hpb⟩ := setChildren_entry_inv h1 hlp hpM hsplit
        (rfl : childrenOfData (.elem t a ls (pre ++ ns ++ post)) =
          pre ++ ns ++ post) hns hlb hub1 h5
      exact ⟨hi, PresBelow.trans h2 hpb, h3⟩
    | frag cs =>
      have hset : setChildrenOf (detachAll d ns) p (pre ++ ns ++ post) =
          setNodeData (detachAll d ns) p (.frag (pre ++ ns ++ post)) := by
        simp only [setChildrenOf, hlp]
      rw [hset]
      obtain ⟨hi, hpb⟩ := setChildren_entry_inv h1 hlp hpM hsplit
        (rfl : childrenOfData (.frag (pre ++ ns ++ post)) = pre ++ ns ++ post)
        hns hlb hub1 h5
      exact ⟨hi, PresBelow.trans h2 hpb, h3⟩
    | txt s =>
      exfalso
      have hpin' : node ∈ ([] : List Nat) := hpin
      simp at hpin'
    | com s =>
      exfalso
      have hpin' : node ∈ ([] : List Nat) := hpin
      simp at hpin'

/-- The path walk as an `Option.bind` fold. -/
theorem getNodeFromPath_eq_bind (d : Dom) (path : List Nat) (root : Nat) :
    getNodeFromPathViaAncesterNode d path root =
      path.foldl (fun acc i => acc.bind (fun cur => (childNodes d cur).get? i))
        (some root) := by
  unfold getNodeFromPathViaAncesterNode
  congr 1
  funext acc i
  cases acc <;> rfl

/-- A failed step poisons the whole path walk. -/
theorem path_fold_bind_none (d : Dom) :
    ∀ path : List Nat,
    path.foldl (fun acc i => acc.bind (fun cur => (childNodes d cur).get? i))
      none = none := by
  intro path
  induction path with
  | nil => rfl
  | cons i rest ih => exact ih

/-- Path resolution from a sealed-above, bounded root lands at or above the
seal and below `nextId`. -/
theorem path_ge {N : Nat} {dc : Dom} (hinv : DomInv N dc) :
    ∀ (path : List Nat) (r : Nat), N ≤ r → r < dc.nextId →
    ∀ n, getNodeFromPathViaAncesterNode dc path r = some n →
    N ≤ n ∧ n < dc.nextId := by
  intro path
  induction path with
  | nil =>
    intro r hr hrlt n h
    rw [getNodeFromPath_eq_bind] at h
    have h' : some r = some n := h
    cases h'
    exact ⟨hr, hrlt⟩
  | cons i rest ih =>
    intro r hr hrlt n h
    rw [getNodeFromPath_eq_bind, List.foldl_cons] at h
    have h' : rest.foldl
        (fun acc i => acc.bind (fun cur => (childNodes dc cur).get? i))
        ((childNodes dc r).get? i) = some n := h
    cases hc : (childNodes dc r).get? i with
    | none =>
      rw [hc, path_fold_bind_none dc rest] at h'
      exact absurd h' (by simp)
    | some c =>
      rw [hc, ← getNodeFromPath_eq_bind] at h'
      have hcm : c ∈ childNodes dc r := List.get?_mem hc
      cases hl : lookupNode dc r with
      | none =>
        have hnil : childNodes dc r = [] := by simp only [childNodes, hl]
        rw [hnil] at hcm
        exact absurd hcm (List.not_mem_nil c)
      | some data =>
        have hch : childNodes dc r = childrenOfData data := by
          simp only [childNodes, hl]
        rw [hch] at hcm
        have hmem := mem_of_lookupNode hl
        have hcN : N ≤ c := hinv.newSealed (r, data) hmem hr c hcm
        have hclt : c < dc.nextId :=
          hinv.flatLt c (children_mem_flat hl hcm)
        exact ih c hcN hclt n h'

mutual
/-- `cloneNodeTree` preserves the invariant, preserves all existing lookups,
and returns an unreferenced fresh root while referencing only fresh
children. -/
theorem cloneNodeTree_inv (t : DTree) :
    ∀ (M : Nat) (d : Dom), DomInv M d →
    DomInv M (cloneNodeTree d t).1 ∧
      (∀ id, id < d.nextId →
        lookupNode (cloneNodeTree d t).1 id = lookupNode d id) ∧
      d.nextId ≤ (cloneNodeTree d t).1.nextId ∧
      d.nextId ≤ (cloneNodeTree d t).2 ∧
      (cloneNodeTree d t).2 < (cloneNodeTree d t).1.nextId ∧
      (cloneNodeTree d t).2 ∉ flatOf (cloneNodeTree d t).1.store ∧
      (∀ c ∈ flatOf (cloneNodeTree d t).1.store,
        c ∈ flatOf d.store ∨ d.nextId ≤ c) := by
  cases t with
  | elem tag attrs children =>
    intro M d hinv
    obtain ⟨f1, f2, f3, f4, f5, f6⟩ := cloneForest_inv children M d hinv
    have heq : cloneNodeTree d (.elem tag attrs children) =
        (⟨((cloneForest d children).1.nextId,
            .elem tag attrs [] (cloneForest d children).2) ::
            (cloneForest d children).1.store,
          (cloneForest d children).1.nextId + 1⟩,
         (cloneForest d children).1.nextId) := rfl
    rw [heq]
    have halloc := alloc_inv
      (.elem tag attrs [] (cloneForest d children).2) f1 f4
      (fun c hc => Nat.le_trans hinv.nle (f5 c hc).1)
      (fun c hc => (f5 c hc).2.1)
      (fun c hc => (f5 c hc).2.2)
    refine ⟨halloc.1, ?_, ?_, f3, Nat.lt_succ_self _, ?_, ?_⟩
    · intro id hid
      rw [halloc.2 id (Nat.lt_of_lt_of_le hid f3)]
      exact f2 id hid
    · exact Nat.le_trans f3 (Nat.le_succ _)
    · intro hc
      have hc' : (cloneForest d children).1.nextId ∈
          (cloneForest d children).2 ++ flatOf (cloneForest d children).1.store :=
        hc
      rcases List.mem_append.mp hc' with h | h
      · exact absurd (f5 _ h).2.1 (Nat.lt_irrefl _)
      · exact absurd (f1.flatLt _ h) (Nat.lt_irrefl _)
    · intro c hc
      have hc' : c ∈
          (cloneForest d children).2 ++ flatOf (cloneForest d children).1.store :=
        hc
      rcases List.mem_append.mp hc' with h | h
      · exact Or.inr (f5 c h).1
      · exact f6 c h
  | txt s =>
    intro M d hinv
    have heq : cloneNodeTree d (.txt s) =
        (⟨(d.nextId, .txt s) :: d.store, d.nextId + 1⟩, d.nextId) := rfl
    rw [heq]
    have halloc := alloc_inv (NodeData.txt s) hinv (by simp [childrenOfData])
      (by intro c hc; simp [childrenOfData] at hc)
      (by intro c hc; simp [childrenOfData] at hc)
      (by intro c hc; simp [childrenOfData] at hc)
    refine ⟨halloc.1, halloc.2, Nat.le_succ _, Nat.le_refl _,
      Nat.lt_succ_self _, ?_, ?_⟩
    · intro hc
      have hc' : d.nextId ∈ flatOf d.store := hc
      exact absurd (hinv.flatLt _ hc') (Nat.lt_irrefl _)
    · intro c hc
      exact Or.inl hc
  | com s =>
    intro M d hinv
    have heq : cloneNodeTree d (.com s) =
        (⟨(d.nextId, .com s) :: d.store, d.nextId + 1⟩, d.nextId) := rfl
    rw [heq]
    have halloc := alloc_inv (NodeData.com s) hinv (by simp [childrenOfData])
      (by intro c hc; simp [childrenOfData] at hc)
      (by intro c hc; simp [childrenOfData] at hc)
      (by intro c hc; simp [childrenOfData] at hc)
    refine ⟨halloc.1, halloc.2, Nat.le_succ _, Nat.le_refl _,
      Nat.lt_succ_self _, ?_, ?_⟩
    · intro hc
      have hc' : d.nextId ∈ flatOf d.store := hc
      exact absurd (hinv.flatLt _ hc') (Nat.lt_irrefl _)
    · intro c hc
      exact Or.inl hc

/-- `cloneForest` preserves the invariant, preserves all existing lookups,
and returns distinct unreferenced fresh roots while referencing only fresh
children. -/
theorem cloneForest_inv (ts : List DTree) :
    ∀ (M : Nat) (d : Dom), DomInv M d →
    DomInv M (cloneForest d ts).1 ∧
      (∀ id, id < d.nextId →
        lookupNode (cloneForest d ts).1 id = lookupNode d id) ∧
      d.nextId ≤ (cloneForest d ts).1.nextId ∧
      (cloneForest d ts).2.Nodup ∧
      (∀ r ∈ (cloneForest d ts).2,
        d.nextId ≤ r ∧ r < (cloneForest d ts).1.nextId ∧
          r ∉ flatOf (cloneForest d ts).1.store) ∧
      (∀ c ∈ flatOf (cloneForest d ts).1.store,
        c ∈ flatOf d.store ∨ d.nextId ≤ c) := by
  cases ts with
  | nil =>
    intro M d hinv
    exact ⟨hinv, fun id _ => rfl, Nat.le_refl _, List.nodup_nil,
      fun r hr => absurd hr (List.not_mem_nil r), fun c hc => Or.inl hc⟩
  | cons t rest =>
    intro M d hinv
    obtain ⟨t1, t2, t3, t4, t5, t6, t7⟩ := cloneNodeTree_inv t M d hinv
    obtain ⟨f1, f2, f3, f4, f5, f6⟩ :=
      cloneForest_inv rest M (cloneNodeTree d t).1 t1
    have heq : cloneForest d (t :: rest) =
        ((cloneForest (cloneNodeTree d t).1 rest).1,
         (cloneNodeTree d t).2 :: (cloneForest (cloneNodeTree d t).1 rest).2) :=
      rfl
    rw [heq]
    refine ⟨f1, ?_, Nat.le_trans t3 f3, ?_, ?_, ?_⟩
    · intro id hid
      rw [f2 id (Nat.lt_of_lt_of_le hid t3)]
      exact t2 id hid
    · refine List.nodup_cons.mpr ⟨?_, f4⟩
      intro hc
      exact absurd (Nat.lt_of_lt_of_le t5 (f5 _ hc).1) (Nat.lt_irrefl _)
    · intro r hr
      rcases List.mem_cons.mp hr with h | h
      · subst h
        refine ⟨t4, Nat.lt_of_lt_of_le t5 f3, ?_⟩
        intro hc
        rcases f6 _ hc with h' | h'
        · exact t6 h'
        · exact absurd t5 (Nat.not_lt.mpr h')
      · obtain ⟨h1, h2, h3⟩ := f5 r h
        exact ⟨Nat.le_trans t3 h1, h2, h3⟩
    · intro c hc
      rcases f6 c hc with h | h
      · rcases t7 c h with h' | h'
        · exact Or.inl h'
        · exact Or.inr h'
      · exact Or.inr (Nat.le_trans t3 h)
end

/-- `cloneContent` preserves the invariant and existing lookups and returns a
fresh, bounded fragment root. -/
theorem cloneContent_inv {M : Nat} {d : Dom} (content : List DTree)
    (hinv : DomInv M d) :
    DomInv M (cloneContent d content).1 ∧
      (∀ id, id < d.nextId →
        lookupNode (cloneContent d content).1 id = lookupNode d id) ∧
      d.nextId ≤ (cloneContent d content).1.nextId ∧
      d.nextId ≤ (cloneContent d content).2 ∧
      (cloneContent d content).2 < (cloneContent d content).1.nextId := by
  obtain ⟨f1, f2, f3, f4, f5, f6⟩ := cloneForest_inv content M d hinv
  have heq : cloneContent d content =
      (⟨((cloneForest d content).1.nextId, .frag (cloneForest d content).2) ::
          (cloneForest d content).1.store,
        (cloneForest d content).1.nextId + 1⟩,
       (cloneForest d content).1.nextId) := rfl
  rw [heq]
  have halloc := alloc_inv (.frag (cloneForest d content).2) f1 f4
    (fun c hc => Nat.le_trans hinv.nle (f5 c hc).1)
    (fun c hc => (f5 c hc).2.1)
    (fun c hc => (f5 c hc).2.2)
  refine ⟨halloc.1, ?_, Nat.le_trans f3 (Nat.le_succ _), f3,
    Nat.lt_succ_self _⟩
  intro id hid
  rw [halloc.2 id (Nat.lt_of_lt_of_le hid f3)]
  exact f2 id hid

/-- `setAttribute` allocates nothing. -/
theorem setAttribute_nextId (d : Dom) (n : Nat) (a v : String) :
    (setAttribute d n a v).nextId = d.nextId := by
  unfold setAttribute
  cases lookupNode d n with
  | none => rfl
  | some data => cases data <;> rfl

/-- `addEventListener` allocates nothing. -/
theorem addEventListener_nextId (d : Dom) (n : Nat) (ev : String) (x : Nat) :
    (addEventListener d n ev x).nextId = d.nextId := by
  unfold addEventListener
  cases lookupNode d n with
  | none => rfl
  | some data =>
    cases data with
    | elem t a ls cs =>
      show (if (ls.any fun p => p.1 == ev && p.2 == x) = true then d
        else setNodeData d n (NodeData.elem t a (ls ++ [(ev, x)]) cs)).nextId =
          d.nextId
      by_cases hany : (ls.any fun p => p.1 == ev && p.2 == x) = true
      · rw [if_pos hany]
      · rw [if_neg hany]
        rfl
    | txt s => rfl
    | com s => rfl
    | frag cs => rfl

/-- Zipping a list with its own image pairs each element with its image. -/
theorem mem_zip_map_self {α β : Type} (g : α → β) :
    ∀ (l : List α) (pr : α × β), pr ∈ l.zip (l.map g) → pr.2 = g pr.1 := by
  intro l
  induction l with
  | nil => intro pr h; simp at h
  | cons a rest ih =>
    intro pr h
    have h' : pr ∈ (a, g a) :: rest.zip (rest.map g) := h
    rcases List.mem_cons.mp h' with h1 | h2
    · rw [h1]
    · exact ih pr h2

set_option maxHeartbeats 1600000 in
/-- The materialization engine: each of `createNodeInstance`, `createParts`
and `materializeItems` preserves the document invariant, never touches a
pre-existing node, only grows `nextId`, and (where it returns nodes) yields
distinct fresh nodes. -/
theorem engine_inv : ∀ f : Nat,
    (∀ d tr dr inst, createNodeInstance f d tr = some (dr, inst) →
      DomInv d.nextId d →
      DomInv d.nextId dr ∧ PresBelow d.nextId d dr ∧
        inst.nodes.Nodup ∧ (∀ n ∈ inst.nodes, d.nextId ≤ n ∧ n < dr.nextId)) ∧
    (∀ M d pairs subs idx dr parts,
      createParts f d pairs subs idx = some (dr, parts) →
      DomInv M d →
      (∀ pr ∈ pairs, ∀ n', pr.2 = some n' → M ≤ n' ∧ n' < d.nextId) →
      DomInv M dr ∧ PresBelow M d dr ∧ d.nextId ≤ dr.nextId) ∧
    (∀ d items dr ns, materializeItems f d items = some (dr, ns) →
      DomInv d.nextId d →
      DomInv d.nextId dr ∧ PresBelow d.nextId d dr ∧
        ns.Nodup ∧ (∀ n ∈ ns, d.nextId ≤ n ∧ n < dr.nextId)) := by
  intro f
  induction f with
  | zero =>
    refine ⟨?_, ?_, ?_⟩
    · intro d tr dr inst h
      exact absurd h (by simp [createNodeInstance])
    · intro M d pairs subs idx dr parts h
      exact absurd h (by simp [createParts])
    · intro d items dr ns h
      exact absurd h (by simp [materializeItems])
  | succ f ih =>
    obtain ⟨ihc, ihp, ihm⟩ := ih
    refine ⟨?_, ?_, ?_⟩
    · -- createNodeInstance
      intro d tr dr inst h hinv
      obtain ⟨c1, c2, c3, c4, c5⟩ := cloneContent_inv tr.content hinv
      cases hq : createParts f (cloneContent d tr.content).1
          (tr.partMeta.zip (tr.partMeta.map (fun m =>
            getNodeFromPathViaAncesterNode (cloneContent d tr.content).1 m.path
              (cloneContent d tr.content).2))) tr.substitutions 0 with
      | none =>
        simp only [createNodeInstance, hq] at h
        exact Option.noConfusion h
      | some q =>
        simp only [createNodeInstance, hq] at h
        injection h with hpair
        injection hpair with hdr hinst
        subst hdr
        subst hinst
        have hpcond : ∀ pr ∈ tr.partMeta.zip (tr.partMeta.map (fun m =>
            getNodeFromPathViaAncesterNode (cloneContent d tr.content).1 m.path
              (cloneContent d tr.content).2)), ∀ n', pr.2 = some n' →
            d.nextId ≤ n' ∧ n' < (cloneContent d tr.content).1.nextId := by
          intro pr hpr n' hn'
          have hg := mem_zip_map_self _ tr.partMeta pr hpr
          rw [hg] at hn'
          exact path_ge c1 pr.1.path (cloneContent d tr.content).2 c4 c5 n' hn'
        obtain ⟨p1, p2, p3⟩ := ihp d.nextId (cloneContent d tr.content).1 _
          tr.substitutions 0 q.1 q.2 hq c1 hpcond
        refine ⟨p1, PresBelow.trans ⟨c3, c2⟩ p2, ?_, ?_⟩
        · show (childNodes q.1 (cloneContent d tr.content).2).Nodup
          cases hlq : lookupNode q.1 (cloneContent d tr.content).2 with
          | none =>
            have hcn : childNodes q.1 (cloneContent d tr.content).2 = [] := by
              simp only [childNodes, hlq]
            rw [hcn]
            exact List.nodup_nil
          | some data =>
            have hcn : childNodes q.1 (cloneContent d tr.content).2 =
                childrenOfData data := by
              simp only [childNodes, hlq]
            rw [hcn]
            exact childrenNodup p1 hlq
        · show ∀ n' ∈ childNodes q.1 (cloneContent d tr.content).2,
            d.nextId ≤ n' ∧ n' < q.1.nextId
          cases hlq : lookupNode q.1 (cloneContent d tr.content).2 with
          | none =>
            have hcn : childNodes q.1 (cloneContent d tr.content).2 = [] := by
              simp only [childNodes, hlq]
            rw [hcn]
            intro n' hn'
            exact absurd hn' (List.not_mem_nil n')
          | some data =>
            have hcn : childNodes q.1 (cloneContent d tr.content).2 =
                childrenOfData data := by
              simp only [childNodes, hlq]
            rw [hcn]
            intro n' hn'
            refine ⟨p1.newSealed _ (mem_of_lookupNode hlq) c4 n' hn', ?_⟩
            exact p1.flatLt n' (children_mem_flat hlq hn')
    · -- createParts
      intro M d pairs subs idx dr parts h hinv hpairs
      cases pairs with
      | nil =>
        have heq : createParts (f+1) d [] subs idx = some (d, []) := rfl
        rw [heq] at h
        injection h with hpair
        injection hpair with hdr hparts
        subst hdr
        exact ⟨hinv, PresBelow.refl M d, Nat.le_refl _⟩
      | cons pr0 rest =>
        obtain ⟨m, nodeOpt⟩ := pr0
        have hrest0 : ∀ pr ∈ rest, ∀ n', pr.2 = some n' →
            M ≤ n' ∧ n' < d.nextId :=
          fun pr hpr n' hn' => hpairs pr (List.mem_cons_of_mem _ hpr) n' hn'
        cases nodeOpt with
        | none =>
          have heq : createParts (f+1) d ((m, none) :: rest) subs idx =
              createParts f d rest subs (idx + 1) := rfl
          rw [heq] at h
          exact ihp M d rest subs (idx+1) dr parts h hinv hrest0
        | some node =>
          have hnode := hpairs (m, some node) (List.mem_cons_self _ _) node rfl
          cases hmk : m.kind with
          | attr =>
            cases hq1 : createParts f (setAttribute d node (m.attr.getD "")
                (toStr (subs.getD idx Value.undefV))) rest subs (idx + 1) with
            | none =>
              simp only [createParts, hmk, hq1] at h
              exact Option.noConfusion h
            | some q =>
              simp only [createParts, hmk, hq1] at h
              injection h with hpair
              injection hpair with hdr hparts
              subst hdr
              obtain ⟨s1, s2⟩ := setAttribute_inv (m.attr.getD "")
                (toStr (subs.getD idx Value.undefV)) hinv hnode.1
              have hrest' : ∀ pr ∈ rest, ∀ n', pr.2 = some n' →
                  M ≤ n' ∧ n' < (setAttribute d node (m.attr.getD "")
                    (toStr (subs.getD idx Value.undefV))).nextId := by
                intro pr hpr n' hn'
                rw [setAttribute_nextId]
                exact hrest0 pr hpr n' hn'
              obtain ⟨p1, p2, p3⟩ := ihp M _ rest subs (idx+1) q.1 q.2 hq1 s1
                hrest'
              refine ⟨p1, PresBelow.trans s2 p2, ?_⟩
              exact Nat.le_trans
                (Nat.le_of_eq (setAttribute_nextId d node _ _).symm) p3
          | event =>
            cases hcl : computeListener (subs.getD idx Value.undefV) with
            | none =>
              have heq : createParts (f+1) d ((m, some node) :: rest) subs idx =
                  createParts f d rest subs (idx + 1) := by
                simp only [createParts, hmk, hcl]
              rw [heq] at h
              exact ihp M d rest subs (idx+1) dr parts h hinv hrest0
            | some x =>
              cases hq1 : createParts f (addEventListener d node
                  (m.event.getD "") x) rest subs (idx + 1) with
              | none =>
                simp only [createParts, hmk, hcl, hq1] at h
                exact Option.noConfusion h
              | some q =>
                simp only [createParts, hmk, hcl, hq1] at h
                injection h with hpair
                injection hpair with hdr hparts
                subst hdr
                obtain ⟨s1, s2⟩ := addEventListener_inv (m.event.getD "") x
                  hinv hnode.1
                have hrest' : ∀ pr ∈ rest, ∀ n', pr.2 = some n' →
                    M ≤ n' ∧ n' < (addEventListener d node
                      (m.event.getD "") x).nextId := by
                  intro pr hpr n' hn'
                  rw [addEventListener_nextId]
                  exact hrest0 pr hpr n' hn'
                obtain ⟨p1, p2, p3⟩ := ihp M _ rest subs (idx+1) q.1 q.2 hq1 s1
                  hrest'
                refine ⟨p1, PresBelow.trans s2 p2, ?_⟩
                exact Nat.le_trans
                  (Nat.le_of_eq (addEventListener_nextId d node _ _).symm) p3
          | text =>
            cases htr : (subs.getD idx Value.undefV).toTR with
            | some trf =>
              cases hcni : createNodeInstance f d trf with
              | none =>
                simp only [createParts, hmk, htr, hcni] at h
                exact Option.noConfusion h
              | some r =>
                cases hq1 : createParts f
                    (replaceNodeWith r.1 node r.2.nodes) rest subs (idx + 1) with
                | none =>
                  simp only [createParts, hmk, htr, hcni, hq1] at h
                  exact Option.noConfusion h
                | some q =>
                  simp only [createParts, hmk, htr, hcni, hq1] at h
                  injection h with hpair
                  injection hpair with hdr hparts
                  subst hdr
                  obtain ⟨c1, c2, c3, c4⟩ := ihc d trf r.1 r.2 hcni hinv.promote
                  have hMr : DomInv M r.1 := DomInv.unpromote hinv c1 c2
                  obtain ⟨r1, r2, r3⟩ := replaceNodeWith_inv hMr hnode.1 c3
                    (fun n' hn' => Nat.le_trans hinv.nle (c4 n' hn').1)
                    (fun n' hn' => (c4 n' hn').2)
                  have hrest' : ∀ pr ∈ rest, ∀ n', pr.2 = some n' →
                      M ≤ n' ∧ n' <
                        (replaceNodeWith r.1 node r.2.nodes).nextId := by
                    intro pr hpr n' hn'
                    obtain ⟨ha, hb⟩ := hrest0 pr hpr n' hn'
                    refine ⟨ha, ?_⟩
                    rw [r3]
                    exact Nat.lt_of_lt_of_le hb c2.1
                  obtain ⟨p1, p2, p3⟩ := ihp M _ rest subs (idx+1) q.1 q.2 hq1
                    r1 hrest'
                  refine ⟨p1,
                    PresBelow.trans (PresBelow.trans (c2.mono hinv.nle) r2) p2,
                    ?_⟩
                  calc d.nextId ≤ r.1.nextId := c2.1
                    _ = (replaceNodeWith r.1 node r.2.nodes).nextId := r3.symm
                    _ ≤ q.1.nextId := p3
            | none =>
              cases harr : (subs.getD idx Value.undefV).arrItems with
              | some items =>
                cases hmi : materializeItems f d items with
                | none =>
                  simp only [createParts, hmk, htr, harr, hmi] at h
                  exact Option.noConfusion h
                | some r =>
                  cases hq1 : createParts f (replaceNodeWith r.1 node r.2)
                      rest subs (idx + 1) with
                  | none =>
                    simp only [createParts, hmk, htr, harr, hmi, hq1] at h
                    exact Option.noConfusion h
                  | some q =>
                    simp only [createParts, hmk, htr, harr, hmi, hq1] at h
                    injection h with hpair
                    injection hpair with hdr hparts
                    subst hdr
                    obtain ⟨c1, c2, c3, c4⟩ := ihm d items r.1 r.2 hmi
                      hinv.promote
                    have hMr : DomInv M r.1 := DomInv.unpromote hinv c1 c2
                    obtain ⟨r1, r2, r3⟩ := replaceNodeWith_inv hMr hnode.1 c3
                      (fun n' hn' => Nat.le_trans hinv.nle (c4 n' hn').1)
                      (fun n' hn' => (c4 n' hn').2)
                    have hrest' : ∀ pr ∈ rest, ∀ n', pr.2 = some n' →
                        M ≤ n' ∧ n' <
                          (replaceNodeWith r.1 node r.2).nextId := by
                      intro pr hpr n' hn'
                      obtain ⟨ha, hb⟩ := hrest0 pr hpr n' hn'
                      refine ⟨ha, ?_⟩
                      rw [r3]
                      exact Nat.lt_of_lt_of_le hb c2.1
                    obtain ⟨p1, p2, p3⟩ := ihp M _ rest subs (idx+1) q.1 q.2
                      hq1 r1 hrest'
                    refine ⟨p1,
                      PresBelow.trans (PresBelow.trans (c2.mono hinv.nle) r2)
                        p2, ?_⟩
                    calc d.nextId ≤ r.1.nextId := c2.1
                      _ = (replaceNodeWith r.1 node r.2).nextId := r3.symm
                      _ ≤ q.1.nextId := p3
              | none =>
                cases hq1 : createParts f
                    (replaceNodeWith (createTextNode d
                      (toStr (subs.getD idx Value.undefV))).1 node
                      [(createTextNode d
                        (toStr (subs.getD idx Value.undefV))).2])
                    rest subs (idx + 1) with
                | none =>
                  simp only [createParts, hmk, htr, harr, hq1] at h
                  exact Option.noConfusion h
                | some q =>
                  simp only [createParts, hmk, htr, harr, hq1] at h
                  injection h with hpair
                  injection hpair with hdr hparts
                  subst hdr
                  have halloc := alloc_inv
                    (NodeData.txt (toStr (subs.getD idx Value.undefV))) hinv
                    (by simp [childrenOfData])
                    (by intro c hc; simp [childrenOfData] at hc)
                    (by intro c hc; simp [childrenOfData] at hc)
                    (by intro c hc; simp [childrenOfData] at hc)
                  have hct : (createTextNode d
                      (toStr (subs.getD idx Value.undefV))).1 =
                      (⟨(d.nextId, NodeData.txt (toStr (subs.getD idx
                        Value.undefV))) :: d.store, d.nextId + 1⟩ : Dom) := rfl
                  have s1 : DomInv M (createTextNode d
                      (toStr (subs.getD idx Value.undefV))).1 := by
                    rw [hct]
                    exact halloc.1
                  have spb : PresBelow M d (createTextNode d
                      (toStr (subs.getD idx Value.undefV))).1 := by
                    rw [hct]
                    exact ⟨Nat.le_succ _, fun id hid =>
                      halloc.2 id (Nat.lt_of_lt_of_le hid hinv.nle)⟩
                  have hsing : ∀ n' ∈ [(createTextNode d (toStr (subs.getD idx
                      Value.undefV))).2], n' = d.nextId := by
                    intro n' hn'
                    simpa using hn'
                  obtain ⟨r1, r2, r3⟩ := replaceNodeWith_inv s1 hnode.1
                    (List.nodup_singleton _)
                    (fun n' hn' => by rw [hsing n' hn']; exact hinv.nle)
                    (fun n' hn' => by
                      rw [hsing n' hn', hct]
                      exact Nat.lt_succ_self _)
                  have hrest' : ∀ pr ∈ rest, ∀ n', pr.2 = some n' →
                      M ≤ n' ∧ n' < (replaceNodeWith (createTextNode d
                        (toStr (subs.getD idx Value.undefV))).1 node
                        [(createTextNode d (toStr (subs.getD idx
                          Value.undefV))).2]).nextId := by
                    intro pr hpr n' hn'
                    obtain ⟨ha, hb⟩ := hrest0 pr hpr n' hn'
                    refine ⟨ha, ?_⟩
                    rw [r3, hct]
                    exact Nat.lt_succ_of_lt hb
                  obtain ⟨p1, p2, p3⟩ := ihp M _ rest subs (idx+1) q.1 q.2 hq1
                    r1 hrest'
                  refine ⟨p1, PresBelow.trans (PresBelow.trans spb r2) p2, ?_⟩
                  have hle : d.nextId ≤ (replaceNodeWith (createTextNode d
                      (toStr (subs.getD idx Value.undefV))).1 node
                      [(createTextNode d (toStr (subs.getD idx
                        Value.undefV))).2]).nextId := by
                    rw [r3, hct]
                    exact Nat.le_succ _
                  exact Nat.le_trans hle p3
    · -- materializeItems
      intro d items dr ns h hinv
      cases items with
      | nil =>
        have heq : materializeItems (f+1) d [] = some (d, []) := rfl
        rw [heq] at h
        injection h with hpair
        injection hpair with hdr hns
        subst hdr
        subst hns
        exact ⟨hinv, PresBelow.refl _ d, List.nodup_nil, by simp⟩
      | cons item rest =>
        cases htr : item.toTR with
        | some trf =>
          cases hcni : createNodeInstance f d trf with
          | none =>
            simp only [materializeItems, htr, hcni] at h
            exact Option.noConfusion h
          | some r =>
            cases hmi : materializeItems f r.1 rest with
            | none =>
              simp only [materializeItems, htr, hcni, hmi] at h
              exact Option.noConfusion h
            | some q =>
              simp only [materializeItems, htr, hcni, hmi] at h
              injection h with hpair
              injection hpair with hdr hnseq
              subst hdr
              subst hnseq
              obtain ⟨c1, c2, c3, c4⟩ := ihc d trf r.1 r.2 hcni hinv
              obtain ⟨m1, m2, m3, m4⟩ := ihm r.1 rest q.1 q.2 hmi c1.promote
              refine ⟨DomInv.unpromote c1 m1 m2,
                PresBelow.trans c2 (m2.mono c2.1), ?_, ?_⟩
              · refine List.Nodup.append c3 m3 ?_
                intro a ha hb
                exact absurd ((c4 a ha).2) (Nat.not_lt.mpr (m4 a hb).1)
              · intro n' hn'
                rcases List.mem_append.mp hn' with hx | hx
                · exact ⟨(c4 n' hx).1, Nat.lt_of_lt_of_le (c4 n' hx).2 m2.1⟩
                · exact ⟨Nat.le_trans c2.1 (m4 n' hx).1, (m4 n' hx).2⟩
        | none =>
          cases hmi : materializeItems f (createTextNode d (toStr item)).1
              rest with
          | none =>
            simp only [materializeItems, htr, hmi] at h
            exact Option.noConfusion h
          | some q =>
            simp only [materializeItems, htr, hmi] at h
            injection h with hpair
            injection hpair with hdr hnseq
            subst hdr
            subst hnseq
            have halloc := alloc_inv (NodeData.txt (toStr item)) hinv
              (by simp [childrenOfData])
              (by intro c hc; simp [childrenOfData] at hc)
              (by intro c hc; simp [childrenOfData] at hc)
              (by intro c hc; simp [childrenOfData] at hc)
            have hct : (createTextNode d (toStr item)).1 =
                (⟨(d.nextId, NodeData.txt (toStr item)) :: d.store,
                  d.nextId + 1⟩ : Dom) := rfl
            have s1 : DomInv d.nextId (createTextNode d (toStr item)).1 := by
              rw [hct]
              exact halloc.1
            have spb : PresBelow d.nextId d
                (createTextNode d (toStr item)).1 := by
              rw [hct]
              exact ⟨Nat.le_succ _, halloc.2⟩
            obtain ⟨m1, m2, m3, m4⟩ := ihm (createTextNode d (toStr item)).1
              rest q.1 q.2 hmi s1.promote
            refine ⟨DomInv.unpromote s1 m1 m2,
              PresBelow.trans spb (m2.mono spb.1), ?_, ?_⟩
            · refine List.nodup_cons.mpr ⟨?_, m3⟩
              intro hb
              have h2 : d.nextId + 1 ≤ d.nextId := (m4 _ hb).1
              omega
            · intro n' hn'
              rcases List.mem_cons.mp hn' with hx | hx
              · subst hx
                refine ⟨Nat.le_refl _, ?_⟩
                have hlt : (createTextNode d (toStr item)).2 <
                    (createTextNode d (toStr item)).1.nextId :=
                  Nat.lt_succ_self _
                exact Nat.lt_of_lt_of_le hlt m2.1
              · exact ⟨Nat.le_trans (Nat.le_succ _) (m4 n' hx).1, (m4 n' hx).2⟩

/-- Appending fresh, distinct nodes one by one with `appendChild` extends the
container's child list in order and touches no other sealed node. -/
theorem fold_append_children {N container : Nat} {t : String}
    {a : List (String × String)} {l : List (String × Nat)} {cs : List Nat}
    {d0 : Dom} (hinv0 : DomInv N d0)
    (hcs : ∀ c ∈ cs, c < N) :
    ∀ (ns acc : List Nat) (d : Dom),
    ns.Nodup → (∀ n ∈ ns, N ≤ n) → (∀ n ∈ ns, n ∉ acc) →
    lookupNode d container = some (.elem t a l (cs ++ acc)) →
    (∀ id, id < N → id ≠ container → lookupNode d id = lookupNode d0 id) →
    lookupNode (ns.foldl (fun dd n => appendChildMove dd container n) d)
        container = some (.elem t a l (cs ++ (acc ++ ns))) ∧
      (∀ id, id < N → id ≠ container →
        lookupNode (ns.foldl (fun dd n => appendChildMove dd container n) d)
          id = lookupNode d0 id) := by
  intro ns
  induction ns with
  | nil =>
    intro acc d _ _ _ hcl hpres
    refine ⟨?_, hpres⟩
    simpa using hcl
  | cons n rest ih =>
    intro acc d hnd hge hdisj hcl hpres
    have hnN : N ≤ n := hge n (List.mem_cons_self _ _)
    have hnacc : n ∉ cs ++ acc := by
      intro hc
      rcases List.mem_append.mp hc with h | h
      · exact absurd (hcs n h) (Nat.not_lt.mpr hnN)
      · exact hdisj n (List.mem_cons_self _ _) h
    have hld1 : lookupNode (detachGlobal d n) container =
        some (.elem t a l (cs ++ acc)) := by
      rw [lookupNode_detachGlobal, hcl]
      show some (removeChildEverywhere n (.elem t a l (cs ++ acc))) = _
      rw [removeChildEverywhere_eq_self hnacc]
    have happ : appendChildMove d container n =
        setNodeData (detachGlobal d n) container
          (.elem t a l ((cs ++ acc) ++ [n])) := by
      simp only [appendChildMove, hld1]
    have hcl' : lookupNode (appendChildMove d container n) container =
        some (.elem t a l (cs ++ (acc ++ [n]))) := by
      rw [happ, lookupNode_setNodeData_self _ _ _ (by rw [hld1]; rfl),
        List.append_assoc]
    have hpres' : ∀ id, id < N → id ≠ container →
        lookupNode (appendChildMove d container n) id = lookupNode d0 id := by
      intro id hid hne
      rw [happ, lookupNode_setNodeData_ne _ _ _ _ hne, lookupNode_detachGlobal,
        hpres id hid hne]
      cases hl0 : lookupNode d0 id with
      | none => rfl
      | some data =>
        have hmem := mem_of_lookupNode hl0
        have hch := hinv0.oldSealed (id, data) hmem hid
        have hnc : n ∉ childrenOfData data := fun hc =>
          absurd (hch n hc) (Nat.not_lt.mpr hnN)
        show some (removeChildEverywhere n data) = some data
        rw [removeChildEverywhere_eq_self hnc]
    have hdisj' : ∀ m ∈ rest, m ∉ acc ++ [n] := by
      intro m hm hc
      rcases List.mem_append.mp hc with h | h
      · exact hdisj m (List.mem_cons_of_mem _ hm) h
      · have hmn : m = n := by simpa using h
        exact (List.nodup_cons.mp hnd).1 (hmn ▸ hm)
    have hge' : ∀ m ∈ rest, N ≤ m :=
      fun m hm => hge m (List.mem_cons_of_mem _ hm)
    obtain ⟨g1, g2⟩ := ih (acc ++ [n]) (appendChildMove d container n)
      (List.nodup_cons.mp hnd).2 hge' hdisj' hcl' hpres'
    simp only [List.foldl_cons]
    refine ⟨?_, g2⟩
    rw [g1, List.append_assoc, List.singleton_append]

/-- A key found by `any` is rewritten by the `niSet` map. -/
theorem find_set_inst (k : Nat) (v : NodeInstance) :
    ∀ c : List (Nat × NodeInstance), (c.any fun e => e.1 == k) = true →
    (c.map (fun e => if e.1 == k then (k, v) else e)).find?
      (fun e => e.1 == k) = some (k, v) := by
  intro c
  induction c with
  | nil => intro h; simp at h
  | cons e tl ih =>
    intro h
    by_cases he : (e.1 == k) = true
    · rw [List.map_cons, if_pos he, List.find?_cons]
      simp
    · have he' : (e.1 == k) = false := by simpa using he
      have hany' : (tl.any fun e => e.1 == k) = true := by
        simp only [List.any_cons, he'] at h
        simpa using h
      rw [List.map_cons, if_neg he]
      simp only [List.find?_cons, he']
      exact ih hany'

/-- `niFind` after `niSet` at the same key. -/
theorem niFind_niSet (c : List (Nat × NodeInstance)) (k : Nat)
    (v : NodeInstance) : niFind (niSet c k v) k = some v := by
  unfold niSet
  by_cases hany : (c.any fun e => e.1 == k) = true
  · rw [if_pos hany]
    unfold niFind
    rw [find_set_inst k v c hany]
    rfl
  · rw [if_neg hany]
    unfold niFind
    rw [List.find?_cons]
    simp

/-- C10: on the first `render` call for a container (no cached instance yet),
the materialized top-level nodes are appended after the container's existing
children, in template order: the container's child list becomes its old
children followed by the recorded instance's node list, and every other
pre-existing node's datum (hence its child list) is left untouched — no
pre-existing child is removed, replaced, or reordered. -/
theorem c10_first_render_appends (f : Nat) (st : RState) (tr : TemplateResultV)
    (container : Nat) (t : String) (a : List (String × String))
    (l : List (String × Nat)) (cs : List Nat) (st' : RState)
    (hinv : DomInv st.dom.nextId st.dom)
    (hfirst : niFind st.cache container = none)
    (hcont : lookupNode st.dom container = some (.elem t a l cs))
    (hrun : render (f + 1) st tr container = some st') :
    ∃ inst : NodeInstance,
      niFind st'.cache container = some inst ∧
      inst.parent = some container ∧
      lookupNode st'.dom container = some (.elem t a l (cs ++ inst.nodes)) ∧
      (∀ id, id < st.dom.nextId → id ≠ container →
        lookupNode st'.dom id = lookupNode st.dom id) := by
  have hcl : container < st.dom.nextId := lookup_lt_nextId hinv hcont
  cases hc : createNodeInstance f st.dom tr with
  | none =>
    simp only [render, hfirst, hc] at hrun
    exact Option.noConfusion hrun
  | some r =>
    simp only [render, hfirst, hc] at hrun
    injection hrun with hst'
    subst hst'
    obtain ⟨e1, e2, e3, e4⟩ := (engine_inv f).1 st.dom tr r.1 r.2 hc hinv
    have hcs : ∀ c ∈ cs, c < st.dom.nextId := by
      intro c hcn
      exact hinv.oldSealed (container, .elem t a l cs)
        (mem_of_lookupNode hcont) hcl c hcn
    have hcl1 : lookupNode r.1 container = some (.elem t a l (cs ++ [])) := by
      rw [e2.2 container hcl, hcont, List.append_nil]
    obtain ⟨g1, g2⟩ := fold_append_children e1 hcs r.2.nodes [] r.1 e3
      (fun n hn => (e4 n hn).1) (by simp) hcl1 (fun _ _ _ => rfl)
    refine ⟨{ r.2 with parent := some container }, ?_, rfl, ?_, ?_⟩
    · exact niFind_niSet st.cache container _
    · exact g1
    · intro id hid hne
      exact (g2 id hid hne).trans (e2.2 id hid)

/-- Witness: the C10 theorem at a concrete first render — an empty `div`
container receives the template's text node as its only child, and the only
other pre-existing lookup is untouched. -/
theorem c10_first_render_appends_witness :
    niFind rst0.cache 0 = none ∧
    lookupNode rst0.dom 0 = some (.elem "div" [] [] []) ∧
    render 4 rst0 ⟨[], [DTree.txt "hi"], []⟩ 0 =
      some ⟨⟨[(2, .frag []), (1, .txt "hi"), (0, .elem "div" [] [] [1])], 3⟩,
        [(0, ⟨some 0, [1], []⟩)]⟩ ∧
    (∃ inst : NodeInstance,
      niFind [(0, (⟨some 0, [1], []⟩ : NodeInstance))] 0 = some inst ∧
      inst.parent = some 0 ∧
      lookupNode ⟨[(2, .frag []), (1, .txt "hi"),
        (0, .elem "div" [] [] [1])], 3⟩ 0 =
        some (.elem "div" [] [] ([] ++ inst.nodes)) ∧
      (∀ id, id < 1 → id ≠ 0 →
        lookupNode ⟨[(2, .frag []), (1, .txt "hi"),
          (0, .elem "div" [] [] [1])], 3⟩ id = lookupNode rst0.dom id)) :=
  ⟨rfl, rfl, rfl,
    c10_first_render_appends 3 rst0 ⟨[], [DTree.txt "hi"], []⟩ 0 "div" [] [] []
      ⟨⟨[(2, .frag []), (1, .txt "hi"), (0, .elem "div" [] [] [1])], 3⟩,
        [(0, ⟨some 0, [1], []⟩)]⟩
      ⟨by decide, by decide, by decide, by decide, by decide, by decide,
        by decide⟩
      rfl rfl rfl⟩

end RenderHtml
